import Mathlib

/-!
Verification development for the LinkedOut adaptive local classification
engine (src/src/utils.js and the local learning module).

Modelling conventions, chosen once and used throughout:

* JS numbers are modelled by the rationals; all constants appearing in the
  code (0.4, 0.15, 0.95, ...) are exact in this model.
* Regular-expression matching is opaque: a pattern is identified by its
  category id together with its index in that category's pattern array
  (mirroring pattern.source as a key), and every classifier definition is
  parametric in a match oracle, test : PatId -> String -> Bool, standing
  for RegExp.prototype.test.  Theorems quantify over the oracle; concrete
  instances fix the oracle on the specific content used, following the
  repository's documented regex behaviour on that content.
* JS objects used as string-keyed dictionaries become association lists
  whose update preserves key order (as JS object insertion order does).
* Nullable arguments become Option; the falsiness of the empty string is
  checked explicitly where the code relies on it.
* String.prototype.toLowerCase and trim are modelled on their ASCII
  fragment (Char.toLower / String.trim); none of the verified claims
  depend on non-ASCII case mapping.
-/

namespace LinkedOut

set_option maxRecDepth 16000

/-- Math.min on the rational model of JS numbers (kernel-reducible). -/
def jsMin (a b : ℚ) : ℚ := if a ≤ b then a else b

/-- Math.max on the rational model of JS numbers (kernel-reducible). -/
def jsMax (a b : ℚ) : ℚ := if b ≤ a then a else b

/-- Math.min on integer values (kernel-reducible). -/
def jsMinI (a b : Int) : Int := if a ≤ b then a else b

/-- Math.max on integer values (kernel-reducible). -/
def jsMaxI (a b : Int) : Int := if b ≤ a then a else b

theorem jsMin_le_right (a b : ℚ) : jsMin a b ≤ b := by
  unfold jsMin; split <;> simp_all

theorem le_jsMin (a b c : ℚ) (h1 : c ≤ a) (h2 : c ≤ b) : c ≤ jsMin a b := by
  unfold jsMin; split <;> assumption

/-- A pattern identifier: the category id and the index of the pattern in
that category's array in LOCAL_PATTERNS (stands for pattern.source). -/
abbrev PatId := String × Nat

/-- The shape of LOCAL_PATTERNS in src/src/utils.js: the seven category
ids, in object order, each with the number of regex patterns in its
array.  The regexes themselves are opaque; only their identity and count
matter to the classifier's control flow. -/
def LOCAL_PATTERNS : List (String × Nat) :=
  [("ai_generated", 9), ("thought_leadership", 9), ("engagement_bait", 9),
   ("self_promotion", 9), ("politics", 8), ("rage_bait", 7), ("corporate_fluff", 10)]

/-- One value of a category in the enabledCategories object:
an enabled flag and an optional label. -/
structure CatCfg where
  enabled : Bool
  label : Option String
  deriving Repr, DecidableEq

/-- The enabledCategories object: category id to configuration, in key
order. -/
abbrev EnabledCategories := List (String × CatCfg)

/-- The sensitivity-dependent triple from the config table in
classifyWithPatterns. -/
structure SensConfig where
  threshold : Nat
  baseConfidence : ℚ
  perMatch : ℚ
  deriving Repr, DecidableEq

/-- The config table and the lookup config[sensitivity] || config.medium. -/
def sensParams (sensitivity : String) : SensConfig :=
  if sensitivity = "low" then ⟨2, 0.4, 0.15⟩
  else if sensitivity = "medium" then ⟨1, 0.5, 0.15⟩
  else if sensitivity = "high" then ⟨1, 0.6, 0.2⟩
  else ⟨1, 0.5, 0.15⟩

/-- The skip test in the category loop:
`if (enabledCategories && !enabledCategories[categoryId]?.enabled) continue`.
Returns true when the category is processed: either enabledCategories is
null/undefined (the guard is falsy, so the loop does not skip), or the
category's entry exists and its enabled flag is set. -/
def catProcessed (ec : Option EnabledCategories) (categoryId : String) : Bool :=
  match ec with
  | none => true
  | some m => ((m.lookup categoryId).map CatCfg.enabled).getD false

/-- The patterns of one category that match the content, in array order
(the loop that increments matchCount and pushes pattern.source). -/
def categoryMatches (test : PatId → String → Bool) (content : String)
    (categoryId : String) (numPatterns : Nat) : List PatId :=
  ((List.range numPatterns).map (fun i => (categoryId, i))).filter
    (fun p => test p content)

/-- One entry of the internal results array of classifyWithPatterns. -/
structure CatResult where
  category : String
  matchCount : Nat
  confidence : ℚ
  matchedPatterns : List PatId
  deriving Repr, DecidableEq

/-- The body of the category loop: the results array, in category order,
holding every qualifying enabled category with its match count,
confidence min(base + matchCount*perMatch, 0.95) and its first three
matched pattern identifiers. -/
def classifyCategories (test : PatId → String → Bool) (content : String)
    (ec : Option EnabledCategories) (cfg : SensConfig) : List CatResult :=
  LOCAL_PATTERNS.filterMap (fun c =>
    if catProcessed ec c.1 then
      let mp := categoryMatches test content c.1 c.2
      if cfg.threshold ≤ mp.length then
        some ⟨c.1, mp.length,
              jsMin (cfg.baseConfidence + mp.length * cfg.perMatch) 0.95,
              mp.take 3⟩
      else none
    else none)

/-- The comparator of results.sort: b strictly precedes a when b has more
matches, or equally many and strictly higher confidence. -/
def strictlyBetter (b a : CatResult) : Bool :=
  if a.matchCount < b.matchCount then true
  else if a.matchCount = b.matchCount then
    if a.confidence < b.confidence then true else false
  else false

/-- results.sort(descending by matchCount then confidence)[0], for a
stable sort: the first element of the array that no later element
strictly beats. -/
def pickBest : List CatResult → Option CatResult
  | [] => none
  | r :: rs =>
    match pickBest rs with
    | none => some r
    | some b => if strictlyBetter b r then some b else some r

/-- The object returned by classifyWithPatterns on a match.  The JS
object literal has exactly the keys filter, category, confidence and
reason; matchedPatterns is not among them, which the model records as an
Option field set to none by the classifier. -/
structure ClassResult where
  filter : Bool
  category : String
  confidence : ℚ
  reason : String
  matchedPatterns : Option (List PatId)
  deriving Repr, DecidableEq

/-- classifyWithPatterns from src/src/utils.js.  content is None for
null/undefined/non-string arguments; the empty string is falsy and also
fails the content guard. -/
def classifyWithPatterns (test : PatId → String → Bool) (content : Option String)
    (enabledCategories : Option EnabledCategories) (sensitivity : String) :
    Option ClassResult :=
  match content with
  | none => none
  | some s =>
    if s = "" then none
    else
      let cfg := sensParams sensitivity
      match pickBest (classifyCategories test s enabledCategories cfg) with
      | none => none
      | some best =>
        some ⟨true, best.category, best.confidence,
              "Matched " ++ toString best.matchCount ++ " pattern(s)", none⟩

/-- A post handed to the batch classifier; content is None for a missing
or non-string field. -/
structure Post where
  id : String
  content : Option String
  deriving Repr, DecidableEq

/-- The settings object of classifyPostsLocally; either field may be
absent. -/
structure Settings where
  categories : Option EnabledCategories
  sensitivity : Option String
  deriving Repr, DecidableEq

/-- One element of the array returned by classifyPostsLocally.  In the
non-match branch the object literal has no categoryLabel and no
matchedPatterns key (both none); in the match branch category is the
winning category and categoryLabel is always present. -/
structure PostClassResult where
  id : String
  filter : Bool
  category : Option String
  confidence : ℚ
  reason : String
  categoryLabel : Option String
  matchedPatterns : Option (List PatId)
  deriving Repr, DecidableEq

/-- categoryConfig?.label || result.category: the label falls back to the
raw category id when the entry or its label is missing, or the label is
the (falsy) empty string. -/
def labelFor (ec : EnabledCategories) (category : String) : String :=
  match (ec.lookup category).bind CatCfg.label with
  | some l => if l = "" then category else l
  | none => category

/-- settings?.categories || {}: the effective category object is always
present, possibly empty. -/
def effectiveCategories (settings : Option Settings) : EnabledCategories :=
  (settings.bind Settings.categories).getD []

/-- settings?.sensitivity || 'medium': a missing or (falsy) empty
sensitivity defaults to medium. -/
def effectiveSensitivity (settings : Option Settings) : String :=
  match settings.bind Settings.sensitivity with
  | some s => if s = "" then "medium" else s
  | none => "medium"

/-- classifyPostsLocally from src/src/utils.js. -/
def classifyPostsLocally (test : PatId → String → Bool) (posts : List Post)
    (settings : Option Settings) : List PostClassResult :=
  let ec : EnabledCategories := effectiveCategories settings
  let sensitivity : String := effectiveSensitivity settings
  posts.map (fun post =>
    match classifyWithPatterns test post.content (some ec) sensitivity with
    | some result =>
      { id := post.id, filter := result.filter, category := some result.category,
        confidence := result.confidence, reason := result.reason,
        categoryLabel := some (labelFor ec result.category),
        matchedPatterns := result.matchedPatterns }
    | none =>
      { id := post.id, filter := false, category := none, confidence := 0,
        reason := "No patterns matched", categoryLabel := none,
        matchedPatterns := none })

/-! ### Generic facts about the classifier -/

theorem pickBest_eq_none {l : List CatResult} : pickBest l = none ↔ l = [] := by
  induction l with
  | nil => simp [pickBest]
  | cons r rs ih =>
    simp only [pickBest]
    cases h : pickBest rs <;> simp [h]
    split <;> simp

theorem pickBest_mem {l : List CatResult} {b : CatResult} (h : pickBest l = some b) :
    b ∈ l := by
  induction l generalizing b with
  | nil => simp [pickBest] at h
  | cons r rs ih =>
    simp only [pickBest] at h
    cases hrs : pickBest rs with
    | none => simp [hrs] at h; simp [h]
    | some b' =>
      simp only [hrs] at h
      split at h
      · simp only [Option.some.injEq] at h
        exact List.mem_cons_of_mem _ (ih (h ▸ hrs))
      · simp only [Option.some.injEq] at h
        simp [h]

/-- The three rows of the sensitivity table are the only values sensParams
can take. -/
theorem sensParams_cases (s : String) :
    sensParams s = ⟨2, 0.4, 0.15⟩ ∨ sensParams s = ⟨1, 0.5, 0.15⟩ ∨
      sensParams s = ⟨1, 0.6, 0.2⟩ := by
  unfold sensParams
  split
  · exact Or.inl rfl
  · split
    · exact Or.inr (Or.inl rfl)
    · split
      · exact Or.inr (Or.inr rfl)
      · exact Or.inr (Or.inl rfl)

/-- Membership in the internal results array, unfolded. -/
theorem mem_classifyCategories {test : PatId → String → Bool} {s : String}
    {ec : Option EnabledCategories} {cfg : SensConfig} {r : CatResult} :
    r ∈ classifyCategories test s ec cfg ↔
      ∃ c ∈ LOCAL_PATTERNS, catProcessed ec c.1 = true ∧
        cfg.threshold ≤ (categoryMatches test s c.1 c.2).length ∧
        r = ⟨c.1, (categoryMatches test s c.1 c.2).length,
             jsMin (cfg.baseConfidence + (categoryMatches test s c.1 c.2).length * cfg.perMatch) 0.95,
             (categoryMatches test s c.1 c.2).take 3⟩ := by
  unfold classifyCategories
  rw [List.mem_filterMap]
  constructor
  · rintro ⟨c, hc, hf⟩
    refine ⟨c, hc, ?_⟩
    by_cases h1 : catProcessed ec c.1 = true
    · simp only [h1, if_true] at hf
      by_cases h2 : cfg.threshold ≤ (categoryMatches test s c.1 c.2).length
      · simp only [h2, if_true] at hf
        exact ⟨h1, h2, (Option.some.injEq _ _).mp hf |>.symm⟩
      · simp [h2] at hf
    · simp [h1] at hf
  · rintro ⟨c, hc, h1, h2, hr⟩
    exact ⟨c, hc, by simp [h1, h2, hr]⟩

/-! ### C1: behaviour of a null enabledCategories argument -/

/-- Concrete instance of the match oracle on the sample content
"synergy": among the repository's regexes, exactly the sixth
ai_generated pattern (index 5, source
\b(synergy|leverage|optimize|streamline|scalable)\b, case-insensitive)
matches that content; every other pattern requires words the content
does not contain.  This mirrors the repository's own unit test
"works with null enabledCategories (all enabled by default)". -/
def synergyTest : PatId → String → Bool := fun p c =>
  decide (p = ("ai_generated", 5)) && decide (c = "synergy")

/-- C1, counterexample.  The claim states that a null/absent
enabledCategories argument disables every category, so
classifyWithPatterns must return null for any matching content.  The
code's guard (enabledCategories && !enabledCategories[id]?.enabled) is
falsy for a null object, so no category is skipped: on the content
"synergy" with enabledCategories = null and medium sensitivity the
function returns a filter decision, not null. -/
theorem c1_counterexample :
    classifyWithPatterns synergyTest (some "synergy") none "medium"
      = some ⟨true, "ai_generated", 0.65, "Matched 1 pattern(s)", none⟩ := by
  simp [classifyWithPatterns, classifyCategories, LOCAL_PATTERNS, catProcessed,
    categoryMatches, synergyTest, pickBest, sensParams, List.filter, List.range,
    List.filterMap, jsMin, strictlyBetter]
  norm_num
  rfl

/-- The enabledCategories object in which every category of
LOCAL_PATTERNS is enabled. -/
def allEnabledCategories : EnabledCategories :=
  LOCAL_PATTERNS.map (fun c => (c.1, ⟨true, none⟩))

/-- C1, amended: when enabledCategories is absent or null, all categories
are treated as enabled, not disabled — classification proceeds exactly
as though every category of the library were switched on. -/
theorem c1_amended (test : PatId → String → Bool) (content : Option String)
    (sensitivity : String) :
    classifyWithPatterns test content none sensitivity
      = classifyWithPatterns test content (some allEnabledCategories) sensitivity := by
  cases content with
  | none => rfl
  | some s =>
    unfold classifyWithPatterns
    simp only
    split
    · rfl
    · have : classifyCategories test s none (sensParams sensitivity)
          = classifyCategories test s (some allEnabledCategories) (sensParams sensitivity) := by
        unfold classifyCategories
        refine List.filterMap_congr (fun c hc => ?_)
        have hall : catProcessed (some allEnabledCategories) c.1 = true := by
          fin_cases hc <;> rfl
        rw [hall]
        rfl
      rw [this]

/-- Inversion of a successful classification: the returned object is
built from a qualifying enabled category, with the documented confidence
formula and reason string, and without a matchedPatterns key. -/
theorem classify_some_inv {test : PatId → String → Bool} {s : String}
    {ec : Option EnabledCategories} {sens : String} {r : ClassResult}
    (h : classifyWithPatterns test (some s) ec sens = some r) :
    ∃ c ∈ LOCAL_PATTERNS, r.filter = true ∧ r.category = c.1 ∧
      catProcessed ec c.1 = true ∧
      (sensParams sens).threshold ≤ (categoryMatches test s c.1 c.2).length ∧
      r.confidence = jsMin ((sensParams sens).baseConfidence
          + (categoryMatches test s c.1 c.2).length * (sensParams sens).perMatch) 0.95 ∧
      r.reason = "Matched " ++ toString (categoryMatches test s c.1 c.2).length
          ++ " pattern(s)" ∧
      r.matchedPatterns = none := by
  unfold classifyWithPatterns at h
  by_cases hs : s = ""
  · simp [hs] at h
  · simp only [hs, if_false] at h
    cases hpb : pickBest (classifyCategories test s ec (sensParams sens)) with
    | none => rw [hpb] at h; simp at h
    | some best =>
      rw [hpb] at h
      simp only [Option.some.injEq] at h
      have hmem := pickBest_mem hpb
      rw [mem_classifyCategories] at hmem
      obtain ⟨c, hc, h1, h2, hbest⟩ := hmem
      refine ⟨c, hc, ?_, ?_, h1, h2, ?_, ?_, ?_⟩ <;>
        simp [← h, hbest]

/-- C5: the sensitivity model of classifyWithPatterns.  The config table
is (low: threshold 2, base 0.40, bonus 0.15; medium: 1, 0.50, 0.15;
high: 1, 0.60, 0.20) with unknown sensitivities coerced to medium; for
non-empty string content the result is null exactly when no enabled
category reaches the threshold; and a returned result's confidence is
min(base + bonus * matchCount, 0.95) for the winning category, hence
always within [base, 0.95]. -/
theorem c5_sensitivity_model (test : PatId → String → Bool) (s : String)
    (ec : Option EnabledCategories) (sens : String) (hs : s ≠ "") :
    (sensParams "low" = ⟨2, 0.4, 0.15⟩ ∧ sensParams "medium" = ⟨1, 0.5, 0.15⟩ ∧
      sensParams "high" = ⟨1, 0.6, 0.2⟩) ∧
    (sens ≠ "low" → sens ≠ "medium" → sens ≠ "high" →
      classifyWithPatterns test (some s) ec sens
        = classifyWithPatterns test (some s) ec "medium") ∧
    (classifyWithPatterns test (some s) ec sens = none ↔
      ∀ c ∈ LOCAL_PATTERNS, catProcessed ec c.1 = true →
        (categoryMatches test s c.1 c.2).length < (sensParams sens).threshold) ∧
    (∀ r, classifyWithPatterns test (some s) ec sens = some r →
      ∃ c ∈ LOCAL_PATTERNS, r.category = c.1 ∧ catProcessed ec c.1 = true ∧
        (sensParams sens).threshold ≤ (categoryMatches test s c.1 c.2).length ∧
        r.confidence = jsMin ((sensParams sens).baseConfidence
            + (categoryMatches test s c.1 c.2).length * (sensParams sens).perMatch) 0.95 ∧
        (sensParams sens).baseConfidence ≤ r.confidence ∧ r.confidence ≤ (0.95 : ℚ)) := by
  refine ⟨⟨rfl, rfl, rfl⟩, ?_, ?_, ?_⟩
  · intro h1 h2 h3
    unfold classifyWithPatterns sensParams
    simp [h1, h2, h3]
  · unfold classifyWithPatterns
    simp only [hs, if_false]
    cases hpb : pickBest (classifyCategories test s ec (sensParams sens)) with
    | none =>
      rw [pickBest_eq_none] at hpb
      simp only [List.eq_nil_iff_forall_not_mem] at hpb
      simp only [true_iff]
      intro c hc hproc
      by_contra hlen
      push_neg at hlen
      exact hpb _ (mem_classifyCategories.mpr ⟨c, hc, hproc, hlen, rfl⟩)
    | some best =>
      simp only [reduceCtorEq, false_iff]
      push_neg
      have hmem := pickBest_mem hpb
      rw [mem_classifyCategories] at hmem
      obtain ⟨c, hc, h1, h2, _⟩ := hmem
      exact ⟨c, hc, h1, h2⟩
  · intro r hr
    obtain ⟨c, hc, _, hcat, hproc, hlen, hconf, _, _⟩ := classify_some_inv hr
    refine ⟨c, hc, hcat, hproc, hlen, hconf, ?_, ?_⟩
    · rw [hconf]
      have hbase95 : (sensParams sens).baseConfidence ≤ (0.95 : ℚ) := by
        rcases sensParams_cases sens with h | h | h <;> rw [h] <;> norm_num
      refine le_jsMin _ _ _ ?_ hbase95
      have : (0 : ℚ) ≤ (categoryMatches test s c.1 c.2).length * (sensParams sens).perMatch := by
        have hper : (0 : ℚ) ≤ (sensParams sens).perMatch := by
          rcases sensParams_cases sens with h | h | h <;> rw [h] <;> norm_num
        positivity
      linarith
    · rw [hconf]; exact jsMin_le_right _ _

/-- C5, witness at the concrete input of the repository's unit tests:
content "synergy", null enabledCategories, medium sensitivity. -/
theorem c5_witness :
    ("synergy" : String) ≠ "" ∧
    (classifyWithPatterns synergyTest (some "synergy") none "medium" = none ↔
      ∀ c ∈ LOCAL_PATTERNS, catProcessed none c.1 = true →
        (categoryMatches synergyTest "synergy" c.1 c.2).length
          < (sensParams "medium").threshold) :=
  ⟨by decide, (c5_sensitivity_model synergyTest "synergy" none "medium" (by decide)).2.2.1⟩

/-! ### C4: the shape of a successful classification result -/

/-- Concrete instance of the match oracle on the sample content
"bipartisan Congress election abortion debate": among the repository's
regexes exactly four politics patterns match it — index 1 (the
left-wing/right-wing/bipartisan alternation, on "bipartisan"), index 2
(the case-insensitive institution list, on "Congress"), index 3 (the
policy-topic list, on "abortion") and index 5 (the
election/voting/ballot/political alternation, on "election") — and no
pattern of any other category matches a word of this content. -/
def politicsTest : PatId → String → Bool := fun p c =>
  decide (c = "bipartisan Congress election abortion debate")
    && (decide (p = ("politics", 1)) || decide (p = ("politics", 2))
        || decide (p = ("politics", 3)) || decide (p = ("politics", 5)))

/-- C4, counterexample.  The claim states that a successful result
carries a matchedPatterns field holding the first three matched pattern
identifiers; with the four matching politics patterns 1, 2, 3, 5 that
field would be [(politics,1), (politics,2), (politics,3)].  The
returned object literal in the code has only the keys filter, category,
confidence and reason: its matchedPatterns component is absent (none),
not the first-three list. -/
theorem c4_counterexample :
    classifyWithPatterns politicsTest
        (some "bipartisan Congress election abortion debate") none "medium"
      = some ⟨true, "politics", 0.95, "Matched 4 pattern(s)", none⟩ := by
  simp [classifyWithPatterns, classifyCategories, LOCAL_PATTERNS, catProcessed,
    categoryMatches, politicsTest, pickBest, sensParams, List.filter, List.range,
    List.filterMap, jsMin, strictlyBetter]
  norm_num
  rfl

/-- C4, amended: on a qualifying category the result contains
filter: true, the winning category, the computed confidence and the
reason "Matched <n> pattern(s)"; the first-three matched-pattern list is
computed internally but not included in the returned object (its
matchedPatterns component is absent). -/
theorem c4_match_shape (test : PatId → String → Bool) (s : String)
    (ec : Option EnabledCategories) (sens : String) (r : ClassResult)
    (h : classifyWithPatterns test (some s) ec sens = some r) :
    r.filter = true ∧ r.matchedPatterns = none ∧
    ∃ c ∈ LOCAL_PATTERNS, r.category = c.1 ∧ catProcessed ec c.1 = true ∧
      r.confidence = jsMin ((sensParams sens).baseConfidence
          + (categoryMatches test s c.1 c.2).length * (sensParams sens).perMatch) 0.95 ∧
      r.reason = "Matched " ++ toString (categoryMatches test s c.1 c.2).length
          ++ " pattern(s)" := by
  obtain ⟨c, hc, hf, hcat, hproc, _, hconf, hreason, hmp⟩ := classify_some_inv h
  exact ⟨hf, hmp, c, hc, hcat, hproc, hconf, hreason⟩

/-- C4, witness at the concrete politics input. -/
theorem c4_witness :
    (classifyWithPatterns politicsTest
        (some "bipartisan Congress election abortion debate") none "medium"
      = some ⟨true, "politics", 0.95, "Matched 4 pattern(s)", none⟩) ∧
    (ClassResult.mk true "politics" 0.95 "Matched 4 pattern(s)" none).filter = true ∧
    (ClassResult.mk true "politics" 0.95 "Matched 4 pattern(s)" none).matchedPatterns
      = none := by
  have h : classifyWithPatterns politicsTest
      (some "bipartisan Congress election abortion debate") none "medium"
      = some ⟨true, "politics", 0.95, "Matched 4 pattern(s)", none⟩ := by
    simp [classifyWithPatterns, classifyCategories, LOCAL_PATTERNS, catProcessed,
      categoryMatches, politicsTest, pickBest, sensParams, List.filter, List.range,
      List.filterMap, jsMin, strictlyBetter]
    norm_num
    rfl
  have hshape := c4_match_shape politicsTest
    "bipartisan Congress election abortion debate" none "medium" _ h
  exact ⟨h, hshape.1, hshape.2.1⟩

/-! ### C8: the batch classifier on missing settings and non-matches -/

/-- The output record of the non-match branch of classifyPostsLocally. -/
def noMatchRecord (id : String) : PostClassResult :=
  ⟨id, false, none, 0, "No patterns matched", none, none⟩

/-- With an empty effective category object every category is skipped, so
classification never fires. -/
theorem classify_empty_categories (test : PatId → String → Bool)
    (content : Option String) (sens : String) :
    classifyWithPatterns test content (some []) sens = none := by
  cases content with
  | none => rfl
  | some s =>
    unfold classifyWithPatterns
    simp only
    split
    · rfl
    · have : classifyCategories test s (some []) (sensParams sens) = [] := rfl
      rw [this]
      rfl

/-- C8: classifyPostsLocally with null or undefined settings (hence an
empty effective category object) maps every post, whatever its content,
to the exact non-match record with filter false, null category,
confidence 0 and reason "No patterns matched"; the empty post list maps
to the empty list for every settings value; and any post whose
classification is null produces exactly the non-match record.  Totality
of the definition discharges the never-raises part of the claim. -/
theorem c8_local_batch_defaults (test : PatId → String → Bool) (posts : List Post) :
    (classifyPostsLocally test posts none = posts.map (fun p => noMatchRecord p.id)) ∧
    (classifyPostsLocally test posts (some ⟨none, none⟩)
      = posts.map (fun p => noMatchRecord p.id)) ∧
    (∀ settings, classifyPostsLocally test [] settings = []) ∧
    (∀ settings : Option Settings, ∀ p : Post,
      classifyWithPatterns test p.content (some (effectiveCategories settings))
          (effectiveSensitivity settings) = none →
      classifyPostsLocally test [p] settings = [noMatchRecord p.id]) := by
  refine ⟨?_, ?_, fun _ => rfl, ?_⟩
  · unfold classifyPostsLocally
    simp only
    refine List.map_congr_left (fun p hp => ?_)
    rw [show effectiveCategories none = [] from rfl, classify_empty_categories]
    rfl
  · unfold classifyPostsLocally
    simp only
    refine List.map_congr_left (fun p hp => ?_)
    rw [show effectiveCategories (some ⟨none, none⟩) = [] from rfl,
        classify_empty_categories]
    rfl
  · intro settings p h
    unfold classifyPostsLocally
    simp only [List.map_cons, List.map_nil]
    rw [h]
    rfl

/-- C8, witness: a concrete post with matching content still maps to the
non-match record under null settings, and the conditional branch fires
at a concrete non-matching classification. -/
theorem c8_witness :
    (classifyPostsLocally synergyTest [⟨"post-1", some "synergy"⟩] none
      = [noMatchRecord "post-1"]) ∧
    (classifyPostsLocally synergyTest [⟨"post-2", some "plain text"⟩] none
      = [noMatchRecord "post-2"]) := by
  constructor
  · exact (c8_local_batch_defaults synergyTest [⟨"post-1", some "synergy"⟩]).1
  · exact (c8_local_batch_defaults synergyTest [⟨"post-2", some "plain text"⟩]).2.2.2
      none ⟨"post-2", some "plain text"⟩ (by decide)

/-! ### The keyword extractor (the local learning module) -/

/-- The apostrophe character, by code point. -/
def apos : Char := Char.ofNat 39

/-- A JS word character (the regex class backslash-w): ASCII letters,
digits, underscore. -/
def isWordCharJS (c : Char) : Bool := c.isAlphanum || c = '_'

/-- A JS whitespace character (the regex class backslash-s):
tab, line feed, vertical tab, form feed, carriage return, space,
no-break space and the Unicode space separators, line/paragraph
separators, narrow no-break space, medium mathematical space,
ideographic space and the byte-order mark. -/
def isSpaceJS (c : Char) : Bool :=
  c.val = 9 || c.val = 10 || c.val = 11 || c.val = 12 || c.val = 13 ||
  c.val = 32 || c.val = 0xa0 || c.val = 0x1680 ||
  (0x2000 ≤ c.val && c.val ≤ 0x200a) ||
  c.val = 0x2028 || c.val = 0x2029 || c.val = 0x202f || c.val = 0x205f ||
  c.val = 0x3000 || c.val = 0xfeff

/-- One character of content.replace(/[^\w\s\x27-]/g, chr(32)): characters
outside word/whitespace/apostrophe/hyphen become a space. -/
def scrub (c : Char) : Char :=
  if isWordCharJS c || isSpaceJS c || c = apos || c = '-' then c else ' '

/-- split(/\s+/) on a character list: the maximal runs of
non-whitespace characters, in order.  (The JS split can additionally
produce empty fragments at the borders; those are discarded anyway by
the minimum-length filter that immediately follows, so the model drops
them at once.) -/
def splitWsAux : List Char → List Char → List (List Char)
  | [], acc => if acc.isEmpty then [] else [acc.reverse]
  | c :: rest, acc =>
    if isSpaceJS c then
      if acc.isEmpty then splitWsAux rest []
      else acc.reverse :: splitWsAux rest []
    else splitWsAux rest (c :: acc)

def splitWs (l : List Char) : List (List Char) := splitWsAux l []

/-- The STOP_WORDS array of the learning module, verbatim (the source
builds a Set from it; list membership is the same predicate). -/
def STOP_WORDS : List String := [
  "a", "an", "the", "and", "or", "but", "in", "on",
  "at", "to", "for", "of", "with", "by", "from", "as",
  "is", "was", "are", "were", "been", "be", "have", "has",
  "had", "do", "does", "did", "will", "would", "could", "should",
  "may", "might", "must", "shall", "can", "need", "dare", "ought",
  "used", "i", "me", "my", "myself", "we", "our", "ours",
  "ourselves", "you", "your", "yours", "yourself", "yourselves", "he", "him",
  "his", "himself", "she", "her", "hers", "herself", "it", "its",
  "itself", "they", "them", "their", "theirs", "themselves", "what", "which",
  "who", "whom", "this", "that", "these", "those", "am", "is",
  "are", "was", "were", "be", "been", "being", "have", "has",
  "had", "having", "do", "does", "did", "doing", "a", "an",
  "the", "and", "but", "if", "or", "because", "as", "until",
  "while", "of", "at", "by", "for", "with", "about", "against",
  "between", "into", "through", "during", "before", "after", "above", "below",
  "to", "from", "up", "down", "in", "out", "on", "off",
  "over", "under", "again", "further", "then", "once", "here", "there",
  "when", "where", "why", "how", "all", "each", "few", "more",
  "most", "other", "some", "such", "no", "nor", "not", "only",
  "own", "same", "so", "than", "too", "very", "s", "t",
  "can", "will", "just", "don", "should", "now", "d", "ll",
  "m", "o", "re", "ve", "y", "ain", "aren", "couldn",
  "didn", "doesn", "hadn", "hasn", "haven", "isn", "ma", "mightn",
  "mustn", "needn", "shan", "shouldn", "wasn", "weren", "won", "wouldn",
  "also", "get", "got", "getting", "going", "go", "goes", "gone",
  "come", "comes", "coming", "came", "make", "makes", "making", "made",
  "take", "takes", "taking", "took", "taken", "see", "sees", "seeing",
  "saw", "seen", "know", "knows", "knowing", "knew", "known", "think",
  "thinks", "thinking", "thought", "want", "wants", "wanting", "wanted", "use",
  "uses", "using", "used", "find", "finds", "finding", "found", "give",
  "gives", "giving", "gave", "given", "tell", "tells", "telling", "told",
  "work", "works", "working", "worked", "call", "calls", "calling", "called",
  "try", "tries", "trying", "tried", "ask", "asks", "asking", "asked",
  "need", "needs", "needing", "needed", "feel", "feels", "feeling", "felt",
  "become", "becomes", "becoming", "became", "leave", "leaves", "leaving", "left",
  "put", "puts", "putting", "mean", "means", "meaning", "meant", "keep",
  "keeps", "keeping", "kept", "let", "lets", "letting", "begin", "begins",
  "beginning", "began", "begun", "seem", "seems", "seeming", "seemed", "help",
  "helps", "helping", "helped", "show", "shows", "showing", "showed", "shown",
  "hear", "hears", "hearing", "heard", "play", "plays", "playing", "played",
  "run", "runs", "running", "ran", "move", "moves", "moving", "moved",
  "live", "lives", "living", "lived", "believe", "believes", "believing", "believed",
  "bring", "brings", "bringing", "brought", "happen", "happens", "happening", "happened",
  "write", "writes", "writing", "wrote", "written", "provide", "provides", "providing",
  "provided", "sit", "sits", "sitting", "sat", "stand", "stands", "standing",
  "stood", "lose", "loses", "losing", "lost", "pay", "pays", "paying",
  "paid", "meet", "meets", "meeting", "met", "include", "includes", "including",
  "included", "continue", "continues", "continuing", "continued", "set", "sets", "setting",
  "learn", "learns", "learning", "learned", "change", "changes", "changing", "changed",
  "lead", "leads", "leading", "led", "understand", "understands", "understanding", "understood",
  "watch", "watches", "watching", "watched", "follow", "follows", "following", "followed",
  "stop", "stops", "stopping", "stopped", "create", "creates", "creating", "created",
  "speak", "speaks", "speaking", "spoke", "spoken", "read", "reads", "reading",
  "allow", "allows", "allowing", "allowed", "add", "adds", "adding", "added",
  "spend", "spends", "spending", "spent", "grow", "grows", "growing", "grew",
  "grown", "open", "opens", "opening", "opened", "walk", "walks", "walking",
  "walked", "win", "wins", "winning", "won", "offer", "offers", "offering",
  "offered", "remember", "remembers", "remembering", "remembered", "love", "loves", "loving",
  "loved", "consider", "considers", "considering", "considered", "appear", "appears", "appearing",
  "appeared", "buy", "buys", "buying", "bought", "wait", "waits", "waiting",
  "waited", "serve", "serves", "serving", "served", "die", "dies", "dying",
  "died", "send", "sends", "sending", "sent", "expect", "expects", "expecting",
  "expected", "build", "builds", "building", "built", "stay", "stays", "staying",
  "stayed", "fall", "falls", "falling", "fell", "fallen", "cut", "cuts",
  "cutting", "reach", "reaches", "reaching", "reached", "kill", "kills", "killing",
  "killed", "remain", "remains", "remaining", "remained", "linkedin", "post", "posts",
  "share", "shared", "sharing", "comment", "comments", "like", "likes", "liked",
  "liking", "people", "person", "thing", "things", "way", "ways", "day",
  "days", "year", "years", "time", "times", "today", "week", "month"]

/-- The filter callback of extractKeywords, with the checks in source
order: minimum length 4, maximum length 25, the stop-word set, purely
numeric tokens, tokens made only of apostrophes and hyphens.  (Token
characters are all in the basic plane, so the model character count
agrees with the JS UTF-16 length.) -/
def keepToken (w : String) : Bool :=
  if w.length < 4 then false
  else if 25 < w.length then false
  else if w ∈ STOP_WORDS then false
  else if w.toList.all Char.isDigit then false
  else if w.toList.all (fun c => c = apos || c = '-') then false
  else true

/-- The token pipeline of extractKeywords: lower-case (modelled on the
ASCII fragment of toLowerCase, applied character by character), scrub,
split on whitespace, filter. -/
def extractToks (s : String) : List String :=
  ((splitWs ((s.toList.map Char.toLower).map scrub)).map
    (fun l => String.mk l)).filter keepToken

/-- One step of the frequency loop freq[word] = (freq[word] || 0) + 1 on
the insertion-ordered model of the freq object: an existing key is
bumped in place, a new key is appended. -/
def bumpTok : List (String × Nat) → String → List (String × Nat)
  | [], t => [(t, 1)]
  | (k, v) :: rest, t =>
    if k = t then (k, v + 1) :: rest else (k, v) :: bumpTok rest t

/-- The frequency table of a token list, keys in first-seen order. -/
def freqList (ts : List String) : List (String × Nat) := ts.foldl bumpTok []

/-- Stable insertion into a count-descending list: the new element goes
in front of the first entry whose count it is greater than or equal to
(the new element stands earlier in the original array, so this is
exactly what a stable descending sort produces). -/
def insertCnt (x : String × Nat) : List (String × Nat) → List (String × Nat)
  | [] => [x]
  | y :: ys => if y.2 ≤ x.2 then x :: y :: ys else y :: insertCnt x ys

/-- Stable sort by descending count, modelling
entries.sort((a, b) => b[1] - a[1]) (JS sort is stable). -/
def sortCnt : List (String × Nat) → List (String × Nat)
  | [] => []
  | x :: xs => insertCnt x (sortCnt xs)

/-- extractKeywords from the local learning module: tokenize, count,
sort by frequency descending (stable), take the top 20 keys.  A
null/undefined/non-string or empty content yields the empty list. -/
def extractKeywords (content : Option String) : List String :=
  match content with
  | none => []
  | some s =>
    if s = "" then []
    else ((sortCnt (freqList (extractToks s))).take 20).map Prod.fst


/-! ### Facts about the keyword extractor -/

/-- The keys a JS object accumulates over a list of insertions: each
element of the list, at its first occurrence. -/
def dedupFirst : List String → List String
  | [] => []
  | a :: l => a :: (dedupFirst l).filter (fun b => b ≠ a)

theorem mem_dedupFirst {b : String} : ∀ {l : List String}, b ∈ dedupFirst l ↔ b ∈ l := by
  intro l
  induction l with
  | nil => simp [dedupFirst]
  | cons a l ih =>
    simp only [dedupFirst, List.mem_cons, List.mem_filter, ih, decide_eq_true_eq]
    constructor
    · rintro (h | ⟨h, _⟩) <;> simp [h]
    · rintro (h | h)
      · simp [h]
      · by_cases hba : b = a
        · simp [hba]
        · simp [h, hba]

theorem nodup_dedupFirst : ∀ (l : List String), (dedupFirst l).Nodup := by
  intro l
  induction l with
  | nil => simp [dedupFirst]
  | cons a l ih =>
    simp only [dedupFirst, List.nodup_cons]
    refine ⟨?_, ih.filter _⟩
    simp

theorem dedupFirst_append_singleton (t : String) : ∀ (p : List String),
    dedupFirst (p ++ [t])
      = if t ∈ p then dedupFirst p else dedupFirst p ++ [t] := by
  intro p
  induction p with
  | nil => simp [dedupFirst]
  | cons a p ih =>
    have hgoal : dedupFirst ((a :: p) ++ [t])
        = a :: (dedupFirst (p ++ [t])).filter (fun b => b ≠ a) := rfl
    have hrhs : dedupFirst (a :: p)
        = a :: (dedupFirst p).filter (fun b => b ≠ a) := rfl
    rw [hgoal, hrhs, ih]
    by_cases htp : t ∈ p
    · rw [if_pos htp, if_pos (List.mem_cons_of_mem a htp)]
    · by_cases hta : t = a
      · subst hta
        rw [if_neg htp, if_pos (List.mem_cons_self t p), List.filter_append]
        simp
      · rw [if_neg htp, if_neg (by simp [hta, htp]), List.filter_append]
        simp [hta]

theorem bumpTok_map_mem {t : String} (f : String → Nat) :
    ∀ {l : List String}, l.Nodup → t ∈ l →
    bumpTok (l.map (fun w => (w, f w))) t
      = l.map (fun w => (w, if w = t then f w + 1 else f w)) := by
  intro l
  induction l with
  | nil => simp
  | cons a l ih =>
    intro hnd hmem
    simp only [List.map_cons, bumpTok]
    by_cases hat : a = t
    · rw [if_pos hat]
      have hnott : t ∉ l := hat ▸ (List.nodup_cons.mp hnd).1
      have : l.map (fun w => (w, if w = t then f w + 1 else f w))
          = l.map (fun w => (w, f w)) :=
        List.map_congr_left (fun w hw => by
          have : w ≠ t := fun hwt => hnott (hwt ▸ hw)
          simp [this])
      simp [hat, this]
    · rw [if_neg hat]
      have hmem' : t ∈ l := by
        rcases List.mem_cons.mp hmem with h | h
        · exact absurd h.symm hat
        · exact h
      rw [ih (List.nodup_cons.mp hnd).2 hmem']
      simp [hat]

theorem bumpTok_map_not_mem {t : String} (f : String → Nat) :
    ∀ {l : List String}, t ∉ l →
    bumpTok (l.map (fun w => (w, f w))) t
      = l.map (fun w => (w, f w)) ++ [(t, 1)] := by
  intro l
  induction l with
  | nil => simp [bumpTok]
  | cons a l ih =>
    intro hmem
    simp only [List.map_cons, bumpTok]
    have hat : a ≠ t := fun h => hmem (h ▸ List.mem_cons_self a l)
    rw [if_neg hat, ih (fun h => hmem (List.mem_cons_of_mem _ h))]
    simp

theorem freqFold_eq : ∀ (ts p : List String),
    List.foldl bumpTok ((dedupFirst p).map (fun w => (w, p.count w))) ts
      = (dedupFirst (p ++ ts)).map (fun w => (w, (p ++ ts).count w)) := by
  intro ts
  induction ts with
  | nil => intro p; simp
  | cons t ts ih =>
    intro p
    have hstep : bumpTok ((dedupFirst p).map (fun w => (w, p.count w))) t
        = (dedupFirst (p ++ [t])).map (fun w => (w, (p ++ [t]).count w)) := by
      rw [dedupFirst_append_singleton]
      by_cases htp : t ∈ p
      · rw [if_pos htp]
        rw [bumpTok_map_mem (fun w => p.count w) (nodup_dedupFirst p)
          (mem_dedupFirst.mpr htp)]
        refine List.map_congr_left (fun w hw => ?_)
        by_cases hwt : w = t <;>
          simp [hwt, List.count_append, List.count_singleton]
      · rw [if_neg htp]
        rw [bumpTok_map_not_mem (fun w => p.count w)
          (fun h => htp (mem_dedupFirst.mp h))]
        rw [List.map_append]
        congr 1
        · refine List.map_congr_left (fun w hw => ?_)
          have hwt : w ≠ t := fun h => htp (h ▸ mem_dedupFirst.mp hw)
          simp [List.count_append, List.count_singleton, hwt]
        · have : p.count t = 0 := List.count_eq_zero.mpr htp
          simp [List.count_append, List.count_singleton, this]
    calc List.foldl bumpTok ((dedupFirst p).map (fun w => (w, p.count w))) (t :: ts)
        = List.foldl bumpTok ((dedupFirst (p ++ [t])).map
            (fun w => (w, (p ++ [t]).count w))) ts := by
          rw [List.foldl_cons, hstep]
      _ = (dedupFirst ((p ++ [t]) ++ ts)).map (fun w => (w, ((p ++ [t]) ++ ts).count w)) :=
          ih (p ++ [t])
      _ = (dedupFirst (p ++ t :: ts)).map (fun w => (w, (p ++ t :: ts).count w)) := by
          rw [List.append_assoc]
          rfl

/-- The frequency table is exactly the first-seen key list paired with
the occurrence counts. -/
theorem freqList_eq (ts : List String) :
    freqList ts = (dedupFirst ts).map (fun w => (w, ts.count w)) := by
  have := freqFold_eq ts []
  simpa [freqList, dedupFirst] using this

/-- First-seen keys are ordered by their first occurrence index. -/
theorem pairwise_indexOf_dedupFirst : ∀ (l : List String),
    List.Pairwise (fun a b => l.indexOf a < l.indexOf b) (dedupFirst l) := by
  intro l
  induction l with
  | nil => simp [dedupFirst]
  | cons a l ih =>
    simp only [dedupFirst, List.pairwise_cons]
    constructor
    · intro b hb
      have hba : b ≠ a := by
        have := (List.mem_filter.mp hb).2
        simpa using this
      rw [List.indexOf_cons_self, List.indexOf_cons_ne _ (Ne.symm hba)]
      exact Nat.succ_pos _
    · have hsub : ((dedupFirst l).filter (fun b => b ≠ a)).Sublist (dedupFirst l) :=
        List.filter_sublist _
      refine (ih.sublist hsub).imp_of_mem ?_
      intro b c hb hc hlt
      have hba : b ≠ a := by simpa using (List.mem_filter.mp hb).2
      have hca : c ≠ a := by simpa using (List.mem_filter.mp hc).2
      rw [List.indexOf_cons_ne _ (Ne.symm hba), List.indexOf_cons_ne _ (Ne.symm hca)]
      omega

theorem insertCnt_perm (x : String × Nat) :
    ∀ (l : List (String × Nat)), List.Perm (insertCnt x l) (x :: l) := by
  intro l
  induction l with
  | nil => simp [insertCnt]
  | cons y ys ih =>
    simp only [insertCnt]
    split
    · exact List.Perm.refl _
    · exact List.Perm.trans (ih.cons y) (List.Perm.swap x y ys)

theorem sortCnt_perm : ∀ (l : List (String × Nat)), List.Perm (sortCnt l) l := by
  intro l
  induction l with
  | nil => simp [sortCnt]
  | cons x xs ih =>
    exact List.Perm.trans (insertCnt_perm x (sortCnt xs)) (ih.cons x)

/-- The order in which a stable descending sort on counts must emit two
entries whose first-occurrence indices are given by idx: strictly larger
count first; on equal counts, smaller index first. -/
def cntLex (idx : String → Nat) (p q : String × Nat) : Prop :=
  q.2 < p.2 ∨ (q.2 = p.2 ∧ idx p.1 < idx q.1)

theorem cntLex_of_le {idx : String → Nat} {x z : String × Nat}
    (hle : z.2 ≤ x.2) (hidx : idx x.1 < idx z.1) : cntLex idx x z := by
  rcases Nat.lt_or_ge z.2 x.2 with h | h
  · exact Or.inl h
  · exact Or.inr ⟨Nat.le_antisymm hle h, hidx⟩

theorem pairwise_cntLex_insertCnt {idx : String → Nat} {x : String × Nat} :
    ∀ {l : List (String × Nat)}, List.Pairwise (cntLex idx) l →
    (∀ z ∈ l, idx x.1 < idx z.1) →
    List.Pairwise (cntLex idx) (insertCnt x l) := by
  intro l
  induction l with
  | nil => intro _ _; simp [insertCnt]
  | cons y ys ih =>
    intro hpw hidx
    have hy := List.pairwise_cons.mp hpw
    simp only [insertCnt]
    split
    · next hle =>
      refine List.pairwise_cons.mpr ⟨?_, hpw⟩
      intro z hz
      rcases List.mem_cons.mp hz with rfl | hz'
      · exact cntLex_of_le hle (hidx _ (List.mem_cons_self _ _))
      · have hzley : z.2 ≤ y.2 := by
          rcases hy.1 z hz' with h | h
          · exact Nat.le_of_lt h
          · exact Nat.le_of_eq h.1
        exact cntLex_of_le (Nat.le_trans hzley hle) (hidx _ (List.mem_cons_of_mem y hz'))
    · next hle =>
      refine List.pairwise_cons.mpr ⟨?_, ih hy.2
        (fun z hz => hidx _ (List.mem_cons_of_mem y hz))⟩
      intro z hz
      have hz' : z = x ∨ z ∈ ys := by
        have := (insertCnt_perm x ys).mem_iff.mp hz
        simpa using this
      rcases hz' with rfl | hz'
      · exact Or.inl (Nat.lt_of_not_le hle)
      · exact hy.1 z hz'

theorem pairwise_cntLex_sortCnt {idx : String → Nat} :
    ∀ {l : List (String × Nat)},
    List.Pairwise (fun p q => idx p.1 < idx q.1) l →
    List.Pairwise (cntLex idx) (sortCnt l) := by
  intro l
  induction l with
  | nil => intro _; simp [sortCnt]
  | cons x xs ih =>
    intro hpw
    have hx := List.pairwise_cons.mp hpw
    simp only [sortCnt]
    exact pairwise_cntLex_insertCnt (ih hx.2)
      (fun z hz => hx.1 z ((sortCnt_perm xs).mem_iff.mp hz))

theorem splitWsAux_chars : ∀ (l acc tok : List Char),
    tok ∈ splitWsAux l acc → (∀ c ∈ acc, isSpaceJS c = false) →
    ∀ c ∈ tok, (c ∈ acc ∨ c ∈ l) ∧ isSpaceJS c = false := by
  intro l
  induction l with
  | nil =>
    intro acc tok htok hacc c hc
    unfold splitWsAux at htok
    split at htok
    · simp at htok
    · simp only [List.mem_singleton] at htok
      subst htok
      have hcacc : c ∈ acc := List.mem_reverse.mp hc
      exact ⟨Or.inl hcacc, hacc c hcacc⟩
  | cons c0 rest ih =>
    intro acc tok htok hacc c hc
    unfold splitWsAux at htok
    split at htok
    · split at htok
      · have := ih [] tok htok (by simp) c hc
        rcases this.1 with h | h
        · simp at h
        · exact ⟨Or.inr (List.mem_cons_of_mem _ h), this.2⟩
      · rcases List.mem_cons.mp htok with rfl | htok'
        · have hcacc : c ∈ acc := List.mem_reverse.mp hc
          exact ⟨Or.inl hcacc, hacc c hcacc⟩
        · have := ih [] tok htok' (by simp) c hc
          rcases this.1 with h | h
          · simp at h
          · exact ⟨Or.inr (List.mem_cons_of_mem _ h), this.2⟩
    · next hsp =>
      have hacc' : ∀ x ∈ c0 :: acc, isSpaceJS x = false := by
        intro x hx
        rcases List.mem_cons.mp hx with rfl | hx'
        · simpa using hsp
        · exact hacc x hx'
      have := ih (c0 :: acc) tok htok hacc' c hc
      rcases this.1 with h | h
      · rcases List.mem_cons.mp h with rfl | h'
        · exact ⟨Or.inr (List.mem_cons_self _ _), this.2⟩
        · exact ⟨Or.inl h', this.2⟩
      · exact ⟨Or.inr (List.mem_cons_of_mem _ h), this.2⟩

/-- The ASCII lower-casing step never produces an upper-case ASCII
letter. -/
theorem isUpper_toLower_false (c : Char) : c.toLower.isUpper = false := by
  unfold Char.toLower Char.isUpper
  simp only
  by_cases h : c.toNat ≥ 65 ∧ c.toNat ≤ 90
  · rw [if_pos h]
    have hvalid : (c.toNat + 32).isValidChar := Or.inl (by omega)
    have hval : (Char.ofNat (c.toNat + 32)).val.toNat = c.toNat + 32 := by
      rw [Char.ofNat, dif_pos hvalid]
      rfl
    have hle : ¬ ((Char.ofNat (c.toNat + 32)).val ≤ 90) := by
      intro hle
      have h2 : (Char.ofNat (c.toNat + 32)).val.toNat ≤ (90 : UInt32).toNat := hle
      rw [hval] at h2
      have h90 : (90 : UInt32).toNat = 90 := rfl
      omega
    simp [hle]
  · rw [if_neg h]
    rcases not_and_or.mp h with h1 | h1
    · have : ¬ (c.val ≥ 65) := fun hge => h1 hge
      simp [this]
    · have : ¬ (c.val ≤ 90) := fun hge => h1 hge
      simp [this]

/-- Every token produced by the extraction pipeline passes the filter
callback, and each of its characters is a kept, non-space, non-upper
character: an ASCII letter or digit, an underscore, an apostrophe or a
hyphen. -/
theorem extractToks_words {s w : String} (hw : w ∈ extractToks s) :
    keepToken w = true ∧
    ∀ c ∈ w.toList, (isWordCharJS c = true ∨ c = apos ∨ c = '-') ∧
      c.isUpper = false ∧ isSpaceJS c = false := by
  unfold extractToks at hw
  have hw1 := List.mem_filter.mp hw
  refine ⟨hw1.2, ?_⟩
  obtain ⟨tok, htok, rfl⟩ := List.mem_map.mp hw1.1
  intro c hc
  have hc' : c ∈ tok := hc
  have hchars := splitWsAux_chars _ [] tok htok (by simp) c hc'
  rcases hchars.1 with h | h
  · simp at h
  · obtain ⟨c1, hc1, rfl⟩ := List.mem_map.mp h
    obtain ⟨c2, _, rfl⟩ := List.mem_map.mp hc1
    by_cases hkeep : (isWordCharJS c2.toLower || isSpaceJS c2.toLower
        || c2.toLower = apos || c2.toLower = '-') = true
    · have hscrub : scrub c2.toLower = c2.toLower := by
        unfold scrub
        rw [if_pos hkeep]
      rw [hscrub] at hchars hc' ⊢
      have hnospace := hchars.2
      simp only [Bool.or_eq_true, decide_eq_true_eq] at hkeep
      rcases hkeep with ((hk | hk) | hk) | hk
      · exact ⟨Or.inl hk, isUpper_toLower_false c2, hnospace⟩
      · rw [hk] at hnospace; simp at hnospace
      · exact ⟨Or.inr (Or.inl hk), isUpper_toLower_false c2, hnospace⟩
      · exact ⟨Or.inr (Or.inr hk), isUpper_toLower_false c2, hnospace⟩
    · have hscrub : scrub c2.toLower = ' ' := by
        unfold scrub
        rw [if_neg hkeep]
      rw [hscrub] at hchars
      have : isSpaceJS ' ' = true := rfl
      rw [this] at hchars
      exact absurd hchars.2 (by simp)

/-- C9, counterexample.  The claim describes the tokenization as
stripping every character that is not a letter, digit, apostrophe or
hyphen; under that description no returned word could contain an
underscore.  The code keeps the regex word class (which includes the
underscore), so the input "word_one" is returned as the single keyword
"word_one", which contains a character that is neither a letter, a
digit, an apostrophe nor a hyphen. -/
theorem c9_counterexample :
    extractKeywords (some "word_one") = ["word_one"] ∧
    ('_' ∈ "word_one".toList ∧ Char.isAlpha '_' = false ∧
      Char.isDigit '_' = false ∧ '_' ≠ apos ∧ '_' ≠ '-') := by
  constructor
  · decide
  · refine ⟨by decide, by decide, by decide, by decide, by decide⟩

/-- Unfolding equation of extractKeywords on a present string. -/
theorem extractKeywords_some (s : String) :
    extractKeywords (some s)
      = if s = "" then []
        else ((sortCnt (freqList (extractToks s))).take 20).map Prod.fst := rfl

/-- C9, amended: extractKeywords returns an ordered list of at most 20
lowercase words sorted most frequent first with ties in first-seen
order, obtained by lower-casing, replacing every character that is not
a letter, digit, underscore (the regex word class), apostrophe or
hyphen with a space, splitting on whitespace, and discarding tokens
shorter than 4 or longer than 25 characters, stop-list tokens,
pure-numeric tokens and punctuation-only tokens; null, non-string or
empty input yields the empty list. -/
theorem c9_extract_shape (content : Option String) :
    (extractKeywords none = [] ∧ extractKeywords (some "") = []) ∧
    (extractKeywords content).length ≤ 20 ∧
    (∀ w ∈ extractKeywords content, keepToken w = true ∧
      ∀ c ∈ w.toList, (isWordCharJS c = true ∨ c = apos ∨ c = '-') ∧
        c.isUpper = false) ∧
    (∀ s, content = some s →
      List.Pairwise (fun w₁ w₂ =>
        (extractToks s).count w₂ < (extractToks s).count w₁ ∨
        ((extractToks s).count w₂ = (extractToks s).count w₁ ∧
          (extractToks s).indexOf w₁ < (extractToks s).indexOf w₂))
        (extractKeywords content)) ∧
    (∀ s, content = some s → (freqList (extractToks s)).length ≤ 20 →
      ∀ w, w ∈ extractKeywords content ↔ w ∈ extractToks s) := by
  refine ⟨⟨rfl, rfl⟩, ?_, ?_, ?_, ?_⟩
  · cases content with
    | none => simp [extractKeywords]
    | some s =>
      rw [extractKeywords_some]
      by_cases hse : s = ""
      · simp [hse]
      · rw [if_neg hse, List.length_map, List.length_take]
        omega
  · intro w hw
    cases content with
    | none => simp [extractKeywords] at hw
    | some s =>
      rw [extractKeywords_some] at hw
      by_cases hse : s = ""
      · rw [if_pos hse] at hw
        simp at hw
      · rw [if_neg hse] at hw
        obtain ⟨p, hp, rfl⟩ := List.mem_map.mp hw
        have hpL : p ∈ sortCnt (freqList (extractToks s)) :=
          (List.take_sublist _ _).mem hp
        have hpF : p ∈ freqList (extractToks s) :=
          (sortCnt_perm _).mem_iff.mp hpL
        rw [freqList_eq] at hpF
        obtain ⟨w', hw', hpw⟩ := List.mem_map.mp hpF
        have : p.1 ∈ extractToks s := by
          rw [← hpw]
          exact mem_dedupFirst.mp hw'
        have hprops := extractToks_words this
        exact ⟨hprops.1, fun c hc => ⟨(hprops.2 c hc).1, (hprops.2 c hc).2.1⟩⟩
  · rintro s rfl
    rw [extractKeywords_some]
    by_cases hse : s = ""
    · rw [if_pos hse]
      simp
    · rw [if_neg hse]
      set ts := extractToks s with hts
      set idx : String → Nat := fun w => ts.indexOf w with hidx
      have hkeys : List.Pairwise (fun p q => idx p.1 < idx q.1) (freqList ts) := by
        rw [freqList_eq]
        rw [List.pairwise_map]
        exact pairwise_indexOf_dedupFirst ts
      have hsorted := pairwise_cntLex_sortCnt hkeys
      have hcnt : ∀ p ∈ sortCnt (freqList ts), p.2 = ts.count p.1 := by
        intro p hp
        have hpF : p ∈ freqList ts := (sortCnt_perm _).mem_iff.mp hp
        rw [freqList_eq] at hpF
        obtain ⟨w', _, hpw⟩ := List.mem_map.mp hpF
        rw [← hpw]
      rw [List.pairwise_map]
      have htake := hsorted.sublist (List.take_sublist 20 _)
      refine htake.imp_of_mem ?_
      intro p q hp hq hlex
      have hpc := hcnt p ((List.take_sublist _ _).mem hp)
      have hqc := hcnt q ((List.take_sublist _ _).mem hq)
      rcases hlex with h | h
      · exact Or.inl (by rw [← hpc, ← hqc]; exact h)
      · exact Or.inr ⟨by rw [← hpc, ← hqc]; exact h.1, h.2⟩
  · rintro s rfl hlen w
    rw [extractKeywords_some]
    by_cases hse : s = ""
    · subst hse
      rw [if_pos rfl]
      have h0 : extractToks "" = [] := rfl
      rw [h0]
    · rw [if_neg hse]
      have hL : (sortCnt (freqList (extractToks s))).length ≤ 20 := by
        rw [(sortCnt_perm _).length_eq]
        exact hlen
      rw [List.take_of_length_le hL]
      constructor
      · intro hw
        obtain ⟨p, hp, rfl⟩ := List.mem_map.mp hw
        have hpF : p ∈ freqList (extractToks s) := (sortCnt_perm _).mem_iff.mp hp
        rw [freqList_eq] at hpF
        obtain ⟨w', hw', hpw⟩ := List.mem_map.mp hpF
        rw [← hpw]
        exact mem_dedupFirst.mp hw'
      · intro hw
        have hw' : w ∈ dedupFirst (extractToks s) := mem_dedupFirst.mpr hw
        refine List.mem_map.mpr ⟨(w, (extractToks s).count w), ?_, rfl⟩
        refine (sortCnt_perm _).mem_iff.mpr ?_
        rw [freqList_eq]
        exact List.mem_map.mpr ⟨w, hw', rfl⟩

/-- C9, witness at a concrete content exercising frequency ordering,
the stop list and the length filter: "data beats data hype the hype
data" has tokens data (three times), beats, hype (twice) — "the" is a
stop word — so the keywords are data, hype, beats. -/
theorem c9_witness :
    (extractKeywords (some "data beats data hype the hype data")
        = ["data", "hype", "beats"]) ∧
    keepToken "data" = true ∧
    ("data" ∈ extractKeywords (some "data beats data hype the hype data") ↔
      "data" ∈ extractToks "data beats data hype the hype data") := by
  refine ⟨by decide, ?_, ?_⟩
  · exact ((c9_extract_shape (some "data beats data hype the hype data")).2.2.1
      "data" (by decide)).1
  · exact (c9_extract_shape (some "data beats data hype the hype data")).2.2.2.2
      _ rfl (by decide) "data"

/-! ### The Learning Store and processSignal -/

/-- One row of SIGNAL_WEIGHTS: the author reputation delta and the two
keyword-analysis flags (absent flags are false). -/
structure SigWeight where
  author : Int
  analyzeForKeep : Bool
  analyzeForFilter : Bool
  deriving Repr, DecidableEq

/-- The SIGNAL_WEIGHTS table; an unrecognized signal name has no entry
(processSignal logs and returns without mutating anything). -/
def SIGNAL_WEIGHTS (signal : String) : Option SigWeight :=
  if signal = "filterApproved" then some ⟨-1, false, true⟩
  else if signal = "filterRejected" then some ⟨2, true, false⟩
  else if signal = "liked" then some ⟨3, true, false⟩
  else if signal = "commented" then some ⟨3, true, false⟩
  else if signal = "shared" then some ⟨3, true, false⟩
  else if signal = "hidden" then some ⟨-10, false, false⟩
  else if signal = "unfollowed" then some ⟨-10, false, false⟩
  else if signal = "notInterested" then some ⟨-2, false, true⟩
  else none

/-- The learnedKeywords aggregate: the keep and filter word lists. -/
structure LearnedKeywords where
  keep : List String
  filter : List String
  deriving Repr, DecidableEq

/-- A hits/misses counter pair of patternStats. -/
structure PatternStat where
  hits : Nat
  misses : Nat
  deriving Repr, DecidableEq

/-- The Learning Store (the learningData aggregate): author reputation,
learned keyword lists, pattern statistics.  All three JS objects are
modelled as insertion-ordered association lists. -/
structure LearningData where
  authorReputation : List (String × Int)
  learnedKeywords : LearnedKeywords
  patternStats : List (PatId × PatternStat)
  deriving Repr, DecidableEq

/-- DEFAULT_LEARNING_DATA: the empty store. -/
def DEFAULT_LEARNING_DATA : LearningData := ⟨[], ⟨[], []⟩, []⟩

/-- JS object property assignment obj[k] = v on an insertion-ordered
association list: an existing key keeps its position, a new key is
appended. -/
def assocSet {β : Type} : List (String × β) → String → β → List (String × β)
  | [], k, v => [(k, v)]
  | (k', v') :: t, k, v =>
    if k' = k then (k, v) :: t else (k', v') :: assocSet t k v

/-- Pattern-keyed object property assignment (same shape, PatId keys). -/
def assocSetP {β : Type} : List (PatId × β) → PatId → β → List (PatId × β)
  | [], k, v => [(k, v)]
  | (k', v') :: t, k, v =>
    if k' = k then (k, v) :: t else (k', v') :: assocSetP t k v

/-- author.trim().toLowerCase(): strip leading and trailing JS
whitespace, then lower-case (ASCII model of toLowerCase). -/
def normalizeAuthor (a : String) : String :=
  String.mk ((((a.toList.dropWhile isSpaceJS).reverse.dropWhile
    isSpaceJS).reverse).map Char.toLower)

/-- arr.slice(-n): the last n elements (the whole list when it is not
longer than n). -/
def takeLast {α : Type} (n : Nat) (l : List α) : List α := l.drop (l.length - n)

/-- The body of the keep-direction keyword loop for a single keyword:
push onto keep if absent, then remove the first occurrence from the
filter list (indexOf + splice). -/
def addKeepKw (lk : LearnedKeywords) (kw : String) : LearnedKeywords :=
  ⟨if kw ∈ lk.keep then lk.keep else lk.keep ++ [kw], lk.filter.erase kw⟩

/-- The body of the filter-direction keyword loop for a single keyword. -/
def addFilterKw (lk : LearnedKeywords) (kw : String) : LearnedKeywords :=
  ⟨lk.keep.erase kw,
   if kw ∈ lk.filter then lk.filter else lk.filter ++ [kw]⟩

/-- The author-reputation step of processSignal: applied only when the
weights row has a non-zero (truthy) author delta and author is a
present, non-empty (truthy) string different from the sentinel
"Unknown"; adds the delta to the normalized author's score, then clamps
to [-100, 100]. -/
def updateReputation (w : SigWeight) (author : Option String)
    (rep : List (String × Int)) : List (String × Int) :=
  match author with
  | none => rep
  | some a =>
    if w.author ≠ 0 ∧ a ≠ "" ∧ a ≠ "Unknown" then
      let k := normalizeAuthor a
      let v := ((rep.lookup k).getD 0) + w.author
      assocSet rep k (jsMaxI (-100) (jsMinI 100 v))
    else rep

/-- The keyword step of processSignal: when content is truthy and
extraction yields keywords, the top five go through the keep loop
and/or the filter loop according to the weights row, and the list that
received insertions is truncated to its most recent 200 entries. -/
def updateKeywords (w : SigWeight) : Option String → LearnedKeywords → LearnedKeywords
  | none, lk => lk
  | some c, lk =>
    if c = "" then lk
    else
      let kws := extractKeywords (some c)
      let lk1 :=
        if w.analyzeForKeep ∧ kws ≠ [] then
          let l2 := (kws.take 5).foldl addKeepKw lk
          ⟨takeLast 200 l2.keep, l2.filter⟩
        else lk
      if w.analyzeForFilter ∧ kws ≠ [] then
        let l3 := (kws.take 5).foldl addFilterKw lk1
        ⟨l3.keep, takeLast 200 l3.filter⟩
      else lk1

/-- The pattern-statistics step of processSignal: only for the signals
filterApproved (hit) and filterRejected (miss) and a non-empty
matchedPatterns list; each listed pattern gets a zero-initialized
counter pair if new, then the corresponding counter is incremented. -/
def updatePatternStats (signal : String) (matchedPatterns : List PatId)
    (ps : List (PatId × PatternStat)) : List (PatId × PatternStat) :=
  if matchedPatterns ≠ [] ∧ (signal = "filterApproved" ∨ signal = "filterRejected") then
    matchedPatterns.foldl (fun m p =>
      let st := (m.lookup p).getD ⟨0, 0⟩
      assocSetP m p (if signal = "filterApproved"
        then ⟨st.hits + 1, st.misses⟩ else ⟨st.hits, st.misses + 1⟩)) ps
  else ps

/-- processSignal from the local learning module, as a pure transformer
of the Learning Store (the storage read/write pair is the injected
key-value port; a missing stored value is the empty store). -/
def processSignal (signal : String) (author content : Option String)
    (matchedPatterns : List PatId) (ld : LearningData) : LearningData :=
  match SIGNAL_WEIGHTS signal with
  | none => ld
  | some w =>
    ⟨updateReputation w author ld.authorReputation,
     updateKeywords w content ld.learnedKeywords,
     updatePatternStats signal matchedPatterns ld.patternStats⟩

/-- One recorded feedback event: the arguments of one processSignal
call. -/
structure SigEvent where
  signal : String
  author : Option String
  content : Option String
  matchedPatterns : List PatId
  deriving Repr, DecidableEq

/-- A sequence of processSignal calls starting from the empty store. -/
def runSignals (evs : List SigEvent) : LearningData :=
  evs.foldl (fun ld e => processSignal e.signal e.author e.content e.matchedPatterns ld)
    DEFAULT_LEARNING_DATA

/-- Every stored reputation score lies within [-100, 100]. -/
def RepOK (rep : List (String × Int)) : Prop :=
  ∀ p ∈ rep, -100 ≤ p.2 ∧ p.2 ≤ 100

theorem assocSet_forall {β : Type} {P : β → Prop} :
    ∀ {m : List (String × β)} {k : String} {v : β},
    (∀ p ∈ m, P p.2) → P v → ∀ p ∈ assocSet m k v, P p.2 := by
  intro m
  induction m with
  | nil =>
    intro k v _ hv p hp
    simp only [assocSet, List.mem_singleton] at hp
    simpa [hp] using hv
  | cons q t ih =>
    intro k v hm hv p hp
    rw [show assocSet (q :: t) k v
        = if q.1 = k then (k, v) :: t else q :: assocSet t k v from rfl] at hp
    split at hp
    · rcases List.mem_cons.mp hp with rfl | hp'
      · exact hv
      · exact hm p (List.mem_cons_of_mem _ hp')
    · rcases List.mem_cons.mp hp with rfl | hp'
      · exact hm p (List.mem_cons_self _ _)
      · exact ih (fun r hr => hm r (List.mem_cons_of_mem _ hr)) hv p hp'

theorem assocSet_lookup {β : Type} :
    ∀ (m : List (String × β)) (k : String) (v : β),
    (assocSet m k v).lookup k = some v := by
  intro m
  induction m with
  | nil => intro k v; simp [assocSet, List.lookup]
  | cons q t ih =>
    intro k v
    rw [show assocSet (q :: t) k v
        = if q.1 = k then (k, v) :: t else q :: assocSet t k v from rfl]
    split
    · simp [List.lookup]
    · next hne =>
      have hbeq : (k == q.1) = false := by simpa using fun h => hne h.symm
      simp [List.lookup, hbeq, ih]

/-- The clamped value is always in range. -/
theorem clamp_mem (v : Int) :
    -100 ≤ jsMaxI (-100) (jsMinI 100 v) ∧ jsMaxI (-100) (jsMinI 100 v) ≤ 100 := by
  unfold jsMaxI jsMinI
  split <;> split <;> omega

/-- Recognized signals all carry a non-zero author delta. -/
theorem SIGNAL_WEIGHTS_author_ne_zero {sig : String} {w : SigWeight}
    (h : SIGNAL_WEIGHTS sig = some w) : w.author ≠ 0 := by
  unfold SIGNAL_WEIGHTS at h
  repeat' split at h
  all_goals try simp only [Option.some.injEq] at h
  all_goals first
    | exact absurd h (by simp)
    | (subst h; decide)

theorem updateReputation_RepOK {w : SigWeight} {author : Option String}
    {rep : List (String × Int)} (hrep : RepOK rep) :
    RepOK (updateReputation w author rep) := by
  unfold RepOK at hrep ⊢
  cases author with
  | none => exact hrep
  | some a =>
    by_cases hcond : w.author ≠ 0 ∧ a ≠ "" ∧ a ≠ "Unknown"
    · have hred : updateReputation w (some a) rep
          = assocSet rep (normalizeAuthor a)
              (jsMaxI (-100) (jsMinI 100
                (((rep.lookup (normalizeAuthor a)).getD 0) + w.author))) := by
        show (if w.author ≠ 0 ∧ a ≠ "" ∧ a ≠ "Unknown" then
            assocSet rep (normalizeAuthor a)
              (jsMaxI (-100) (jsMinI 100
                (((rep.lookup (normalizeAuthor a)).getD 0) + w.author)))
          else rep) = _
        rw [if_pos hcond]
      rw [hred]
      exact @assocSet_forall _ (fun x => -100 ≤ x ∧ x ≤ 100) _ _ _ hrep (clamp_mem _)
    · have hred : updateReputation w (some a) rep = rep := by
        show (if w.author ≠ 0 ∧ a ≠ "" ∧ a ≠ "Unknown" then
            assocSet rep (normalizeAuthor a)
              (jsMaxI (-100) (jsMinI 100
                (((rep.lookup (normalizeAuthor a)).getD 0) + w.author)))
          else rep) = rep
        rw [if_neg hcond]
      rw [hred]
      exact hrep

/-- C7: starting from the empty Learning Store, every stored
author-reputation score stays within [-100, 100] after any sequence of
processSignal calls: the signal table carries the documented deltas
(filterApproved -1, filterRejected +2, liked/commented/shared +3,
hidden/unfollowed -10, notInterested -2), a recognized signal with a
present, non-"Unknown" author sets the trimmed lower-cased author's
score to the clamp of (old score + delta), and no reputation entry
changes when the author is absent, empty or the sentinel "Unknown", or
the signal is unrecognized. -/
theorem c7_reputation_clamped :
    (SIGNAL_WEIGHTS "filterApproved" = some ⟨-1, false, true⟩ ∧
     SIGNAL_WEIGHTS "filterRejected" = some ⟨2, true, false⟩ ∧
     SIGNAL_WEIGHTS "liked" = some ⟨3, true, false⟩ ∧
     SIGNAL_WEIGHTS "commented" = some ⟨3, true, false⟩ ∧
     SIGNAL_WEIGHTS "shared" = some ⟨3, true, false⟩ ∧
     SIGNAL_WEIGHTS "hidden" = some ⟨-10, false, false⟩ ∧
     SIGNAL_WEIGHTS "unfollowed" = some ⟨-10, false, false⟩ ∧
     SIGNAL_WEIGHTS "notInterested" = some ⟨-2, false, true⟩) ∧
    (∀ sig author content mp ld, RepOK ld.authorReputation →
      RepOK (processSignal sig author content mp ld).authorReputation) ∧
    (∀ evs, RepOK (runSignals evs).authorReputation) ∧
    (∀ sig content mp ld,
      (processSignal sig none content mp ld).authorReputation = ld.authorReputation ∧
      (processSignal sig (some "") content mp ld).authorReputation
        = ld.authorReputation ∧
      (processSignal sig (some "Unknown") content mp ld).authorReputation
        = ld.authorReputation) ∧
    (∀ sig w a content mp ld, SIGNAL_WEIGHTS sig = some w →
      a ≠ "" → a ≠ "Unknown" →
      (processSignal sig (some a) content mp ld).authorReputation
        = assocSet ld.authorReputation (normalizeAuthor a)
            (jsMaxI (-100) (jsMinI 100
              (((ld.authorReputation.lookup (normalizeAuthor a)).getD 0) + w.author)))) := by
  refine ⟨⟨rfl, rfl, rfl, rfl, rfl, rfl, rfl, rfl⟩, ?_, ?_, ?_, ?_⟩
  · intro sig author content mp ld hld
    unfold processSignal
    cases h : SIGNAL_WEIGHTS sig with
    | none => exact hld
    | some w => exact updateReputation_RepOK hld
  · intro evs
    have hbase : RepOK DEFAULT_LEARNING_DATA.authorReputation := by
      intro p hp
      simp [DEFAULT_LEARNING_DATA] at hp
    rw [runSignals]
    induction evs using List.reverseRecOn with
    | nil => exact hbase
    | append_singleton es e ih =>
      rw [List.foldl_append, List.foldl_cons, List.foldl_nil]
      revert ih
      generalize List.foldl _ DEFAULT_LEARNING_DATA es = ld
      intro ih
      unfold processSignal
      cases h : SIGNAL_WEIGHTS e.signal with
      | none => exact ih
      | some w => exact updateReputation_RepOK ih
  · intro sig content mp ld
    refine ⟨?_, ?_, ?_⟩ <;>
      (unfold processSignal
       cases h : SIGNAL_WEIGHTS sig with
       | none => rfl
       | some w => simp [updateReputation])
  · intro sig w a content mp ld hsig ha hu
    unfold processSignal
    rw [hsig]
    simp only [updateReputation]
    rw [if_pos ⟨SIGNAL_WEIGHTS_author_ne_zero hsig, ha, hu⟩]

/-- C7, witness: two hidden signals for author "Jane Doe" drive the
stored score for the key "jane doe" to -20, and the theorem's update
equation applies at this concrete input. -/
theorem c7_witness :
    ((runSignals [⟨"hidden", some "Jane Doe", none, []⟩,
                  ⟨"hidden", some "Jane Doe", none, []⟩]).authorReputation.lookup
        "jane doe" = some (-20)) ∧
    ((processSignal "hidden" (some "Jane Doe") none [] DEFAULT_LEARNING_DATA).authorReputation
      = assocSet DEFAULT_LEARNING_DATA.authorReputation (normalizeAuthor "Jane Doe")
          (jsMaxI (-100) (jsMinI 100
            (((DEFAULT_LEARNING_DATA.authorReputation.lookup
                (normalizeAuthor "Jane Doe")).getD 0) + (-10))))) ∧
    RepOK (runSignals [⟨"hidden", some "Jane Doe", none, []⟩]).authorReputation := by
  refine ⟨by decide, ?_, ?_⟩
  · exact (c7_reputation_clamped.2.2.2.2 "hidden" ⟨-10, false, false⟩ "Jane Doe"
      none [] DEFAULT_LEARNING_DATA rfl (by decide) (by decide))
  · exact c7_reputation_clamped.2.2.1 [⟨"hidden", some "Jane Doe", none, []⟩]

/-! ### C6: structure of the learned keyword lists -/

/-- The keyword-list part of the Learning Store invariant: both lists
duplicate-free, disjoint, and of at most 200 entries. -/
def KwInv (lk : LearnedKeywords) : Prop :=
  lk.keep.Nodup ∧ lk.filter.Nodup ∧ (∀ x ∈ lk.keep, x ∉ lk.filter) ∧
  lk.keep.length ≤ 200 ∧ lk.filter.length ≤ 200

/-- The part of the invariant that the insertion loops preserve on their
own (lengths are restored by the slice(-200) truncation afterwards). -/
def KwDisj (lk : LearnedKeywords) : Prop :=
  lk.keep.Nodup ∧ lk.filter.Nodup ∧ (∀ x ∈ lk.keep, x ∉ lk.filter)

theorem addKeepKw_disj {lk : LearnedKeywords} {kw : String} (h : KwDisj lk) :
    KwDisj (addKeepKw lk kw) := by
  obtain ⟨hk, hf, hd⟩ := h
  refine ⟨?_, hf.erase kw, ?_⟩
  · unfold addKeepKw
    split
    · exact hk
    · next hmem =>
      rw [← List.concat_eq_append]
      exact hk.concat hmem
  · intro x hx
    unfold addKeepKw at hx ⊢
    simp only at hx ⊢
    have hxk : x ∈ lk.keep ∨ x = kw := by
      split at hx
      · exact Or.inl hx
      · rcases List.mem_append.mp hx with h1 | h1
        · exact Or.inl h1
        · exact Or.inr (List.mem_singleton.mp h1)
    rcases hxk with h1 | rfl
    · exact fun hc => hd x h1 (List.mem_of_mem_erase hc)
    · exact hf.not_mem_erase

theorem addFilterKw_disj {lk : LearnedKeywords} {kw : String} (h : KwDisj lk) :
    KwDisj (addFilterKw lk kw) := by
  obtain ⟨hk, hf, hd⟩ := h
  refine ⟨hk.erase kw, ?_, ?_⟩
  · unfold addFilterKw
    split
    · exact hf
    · next hmem =>
      rw [← List.concat_eq_append]
      exact hf.concat hmem
  · intro x hx
    unfold addFilterKw at hx ⊢
    simp only at hx ⊢
    have hxkw : x ≠ kw := ((hk.mem_erase_iff).mp hx).1
    have hxk : x ∈ lk.keep := List.mem_of_mem_erase hx
    split
    · exact hd x hxk
    · intro hc
      rcases List.mem_append.mp hc with h1 | h1
      · exact hd x hxk h1
      · exact hxkw (List.mem_singleton.mp h1)

theorem foldl_addKeepKw_disj {kws : List String} :
    ∀ {lk : LearnedKeywords}, KwDisj lk → KwDisj (kws.foldl addKeepKw lk) := by
  induction kws with
  | nil => intro lk h; exact h
  | cons k ks ih => intro lk h; exact ih (addKeepKw_disj h)

theorem foldl_addFilterKw_disj {kws : List String} :
    ∀ {lk : LearnedKeywords}, KwDisj lk → KwDisj (kws.foldl addFilterKw lk) := by
  induction kws with
  | nil => intro lk h; exact h
  | cons k ks ih => intro lk h; exact ih (addFilterKw_disj h)

theorem foldl_addKeepKw_filter_shrinks {kws : List String} :
    ∀ {lk : LearnedKeywords},
    (kws.foldl addKeepKw lk).filter.length ≤ lk.filter.length := by
  induction kws with
  | nil => intro lk; exact Nat.le_refl _
  | cons k ks ih =>
    intro lk
    refine Nat.le_trans ih ?_
    exact (lk.filter.erase_sublist k).length_le

theorem foldl_addFilterKw_keep_shrinks {kws : List String} :
    ∀ {lk : LearnedKeywords},
    (kws.foldl addFilterKw lk).keep.length ≤ lk.keep.length := by
  induction kws with
  | nil => intro lk; exact Nat.le_refl _
  | cons k ks ih =>
    intro lk
    refine Nat.le_trans ih ?_
    exact (lk.keep.erase_sublist k).length_le

theorem takeLast_length_le {α : Type} (n : Nat) (l : List α) :
    (takeLast n l).length ≤ n ∨ (takeLast n l).length = l.length := by
  unfold takeLast
  rw [List.length_drop]
  omega

theorem takeLast_sublist {α : Type} (n : Nat) (l : List α) :
    (takeLast n l).Sublist l := by
  unfold takeLast
  exact List.drop_sublist _ _

theorem takeLast_eq_append {α : Type} (n : Nat) (l : List α) :
    ∃ front, l = front ++ takeLast n l :=
  ⟨l.take (l.length - n), (List.take_append_drop _ l).symm⟩

theorem takeLast_le_200 (l : List String) : (takeLast 200 l).length ≤ 200 := by
  unfold takeLast
  rw [List.length_drop]
  omega

theorem updateKeywords_KwInv {w : SigWeight} {content : Option String}
    {lk : LearnedKeywords} (h : KwInv lk) :
    KwInv (updateKeywords w content lk) := by
  obtain ⟨hk, hf, hd, hkl, hfl⟩ := h
  cases content with
  | none => exact ⟨hk, hf, hd, hkl, hfl⟩
  | some c =>
    simp only [updateKeywords]
    by_cases hce : c = ""
    · rw [if_pos hce]
      exact ⟨hk, hf, hd, hkl, hfl⟩
    · rw [if_neg hce]
      set kws := extractKeywords (some c) with hkws
      have hstep1 : KwInv (if w.analyzeForKeep ∧ kws ≠ [] then
          ⟨takeLast 200 ((kws.take 5).foldl addKeepKw lk).keep,
           ((kws.take 5).foldl addKeepKw lk).filter⟩ else lk) := by
        split
        · have hdj := @foldl_addKeepKw_disj (kws.take 5) _ ⟨hk, hf, hd⟩
          refine ⟨hdj.1.sublist (takeLast_sublist _ _), hdj.2.1, ?_, ?_, ?_⟩
          · intro x hx
            exact hdj.2.2 x ((takeLast_sublist _ _).mem hx)
          · exact takeLast_le_200 _
          · exact Nat.le_trans foldl_addKeepKw_filter_shrinks hfl
        · exact ⟨hk, hf, hd, hkl, hfl⟩
      set lk1 := (if w.analyzeForKeep ∧ kws ≠ [] then
          ⟨takeLast 200 ((kws.take 5).foldl addKeepKw lk).keep,
           ((kws.take 5).foldl addKeepKw lk).filter⟩ else lk) with hlk1
      obtain ⟨h1k, h1f, h1d, h1kl, h1fl⟩ := hstep1
      split
      · have hdj := @foldl_addFilterKw_disj (kws.take 5) _ ⟨h1k, h1f, h1d⟩
        refine ⟨hdj.1, hdj.2.1.sublist (takeLast_sublist _ _), ?_, ?_, ?_⟩
        · intro x hx hc
          exact hdj.2.2 x hx ((takeLast_sublist _ _).mem hc)
        · exact Nat.le_trans foldl_addFilterKw_keep_shrinks h1kl
        · exact takeLast_le_200 _
      · exact ⟨h1k, h1f, h1d, h1kl, h1fl⟩

theorem processSignal_KwInv {sig : String} {a c : Option String}
    {mp : List PatId} {ld : LearningData} (h : KwInv ld.learnedKeywords) :
    KwInv (processSignal sig a c mp ld).learnedKeywords := by
  unfold processSignal
  cases hw : SIGNAL_WEIGHTS sig with
  | none => exact h
  | some w => exact updateKeywords_KwInv h

/-- C6: along every sequence of processSignal calls from the empty
Learning Store, the keep and filter keyword lists stay duplicate-free
and disjoint and never exceed 200 entries; inserting a word into one
list removes it from the other; insertions append at the tail without
reordering what is already present (FIFO by insertion, not by recency
of use), and the 200-entry truncation keeps a suffix of the grown list,
evicting the oldest entries first. -/
theorem c6_keyword_lists :
    (∀ evs, (∀ x ∈ (runSignals evs).learnedKeywords.keep,
        x ∉ (runSignals evs).learnedKeywords.filter) ∧
      (runSignals evs).learnedKeywords.keep.length ≤ 200 ∧
      (runSignals evs).learnedKeywords.filter.length ≤ 200) ∧
    (∀ sig a c mp ld, KwInv ld.learnedKeywords →
      KwInv (processSignal sig a c mp ld).learnedKeywords) ∧
    (∀ lk kw, lk.filter.Nodup →
      kw ∈ (addKeepKw lk kw).keep ∧ kw ∉ (addKeepKw lk kw).filter) ∧
    (∀ lk kw, lk.keep.Nodup →
      kw ∈ (addFilterKw lk kw).filter ∧ kw ∉ (addFilterKw lk kw).keep) ∧
    (∀ lk kws, ∃ tail, (List.foldl addKeepKw lk kws).keep = lk.keep ++ tail) ∧
    (∀ lk kws, ∃ tail, (List.foldl addFilterKw lk kws).filter = lk.filter ++ tail) ∧
    (∀ (n : Nat) (l : List String), ∃ front, l = front ++ takeLast n l) := by
  refine ⟨?_, ?_, ?_, ?_, ?_, ?_, takeLast_eq_append⟩
  · intro evs
    have hbase : KwInv DEFAULT_LEARNING_DATA.learnedKeywords := by
      refine ⟨?_, ?_, ?_, ?_, ?_⟩ <;> simp [DEFAULT_LEARNING_DATA]
    have hinv : KwInv (runSignals evs).learnedKeywords := by
      rw [runSignals]
      induction evs using List.reverseRecOn with
      | nil => exact hbase
      | append_singleton es e ih =>
        rw [List.foldl_append, List.foldl_cons, List.foldl_nil]
        exact processSignal_KwInv ih
    exact ⟨hinv.2.2.1, hinv.2.2.2⟩
  · intro sig a c mp ld h
    exact processSignal_KwInv h
  · intro lk kw hf
    constructor
    · unfold addKeepKw
      simp only
      split
      · assumption
      · exact List.mem_append.mpr (Or.inr (List.mem_singleton.mpr rfl))
    · exact hf.not_mem_erase
  · intro lk kw hk
    constructor
    · unfold addFilterKw
      simp only
      split
      · assumption
      · exact List.mem_append.mpr (Or.inr (List.mem_singleton.mpr rfl))
    · exact hk.not_mem_erase
  · intro lk kws
    induction kws generalizing lk with
    | nil => exact ⟨[], by simp⟩
    | cons k ks ih =>
      obtain ⟨t2, ht2⟩ := ih (addKeepKw lk k)
      rw [List.foldl_cons, ht2]
      unfold addKeepKw
      simp only
      split
      · exact ⟨t2, rfl⟩
      · exact ⟨[k] ++ t2, by simp⟩
  · intro lk kws
    induction kws generalizing lk with
    | nil => exact ⟨[], by simp⟩
    | cons k ks ih =>
      obtain ⟨t2, ht2⟩ := ih (addFilterKw lk k)
      rw [List.foldl_cons, ht2]
      unfold addFilterKw
      simp only
      split
      · exact ⟨t2, rfl⟩
      · exact ⟨[k] ++ t2, by simp⟩

/-- C6, witness: a concrete run in which the same keyword first learned
as a filter word moves to the keep list on a later filterRejected
signal, with both lists staying disjoint and within bounds. -/
theorem c6_witness :
    ((runSignals [⟨"notInterested", none, some "kubernetes rollout", []⟩]).learnedKeywords.filter
      = ["kubernetes", "rollout"]) ∧
    ((runSignals [⟨"notInterested", none, some "kubernetes rollout", []⟩,
        ⟨"filterRejected", none, some "kubernetes cluster", []⟩]).learnedKeywords.keep
      = ["kubernetes", "cluster"]) ∧
    ((runSignals [⟨"notInterested", none, some "kubernetes rollout", []⟩,
        ⟨"filterRejected", none, some "kubernetes cluster", []⟩]).learnedKeywords.filter
      = ["rollout"]) ∧
    (∀ x ∈ (runSignals [⟨"notInterested", none, some "kubernetes rollout", []⟩,
        ⟨"filterRejected", none, some "kubernetes cluster", []⟩]).learnedKeywords.keep,
      x ∉ (runSignals [⟨"notInterested", none, some "kubernetes rollout", []⟩,
        ⟨"filterRejected", none, some "kubernetes cluster", []⟩]).learnedKeywords.filter) := by
  refine ⟨by decide, by decide, by decide, ?_⟩
  exact (c6_keyword_lists.1 [⟨"notInterested", none, some "kubernetes rollout", []⟩,
    ⟨"filterRejected", none, some "kubernetes cluster", []⟩]).1

/-! ### The Adjustment Engine -/

/-- The adjustments record of getLearningAdjustments. -/
structure Adjustments where
  authorAdjustment : ℚ
  keywordAdjustment : ℚ
  patternWeights : List (PatId × ℚ)
  dominated : Option String
  deriving Repr, DecidableEq

/-- Whether hay starts with sub (helper for the substring test). -/
def startsWith : List Char → List Char → Bool
  | _, [] => true
  | [], _ :: _ => false
  | h :: hs, s :: ss => h = s && startsWith hs ss

/-- String.prototype.includes: sub occurs somewhere in hay. -/
def containsSub : List Char → List Char → Bool
  | [], sub => startsWith [] sub
  | h :: t, sub => startsWith (h :: t) sub || containsSub t sub

/-- contentLower.includes(kw) on the model strings. -/
def strIncludes (s sub : String) : Bool := containsSub s.toList sub.toList

/-- content.toLowerCase() (ASCII model, character by character). -/
def lowerStr (s : String) : String := String.mk (s.toList.map Char.toLower)

/-- The author-reputation branch of getLearningAdjustments: the
adjustment value and the dominated marker.  Applied only for a truthy
author different from "Unknown"; the bands are checked in source order
(strong negative, mild negative, strong positive — marking dominated
from +20 — mild positive). -/
def authorAdjPair : Option String → LearningData → ℚ × Option String
  | none, _ => (0, none)
  | some a, ld =>
    if a ≠ "" ∧ a ≠ "Unknown" then
      let r := (ld.authorReputation.lookup (normalizeAuthor a)).getD 0
      if r ≤ -10 then (0.2, none)
      else if r ≤ -5 then (0.1, none)
      else if 10 ≤ r then (-0.3, if 20 ≤ r then some "keep" else none)
      else if 5 ≤ r then (-0.15, none)
      else (0, none)
    else (0, none)

/-- The keyword branch of getLearningAdjustments: count the learned keep
and filter words occurring (case-insensitively, as substrings) in the
content, and push 0.1 per point of difference, capped at 3 points,
toward the dominating side. -/
def keywordAdj : Option String → LearningData → ℚ
  | none, _ => 0
  | some c, ld =>
    if c = "" then 0
    else
      let cl := lowerStr c
      let keepMatches := (ld.learnedKeywords.keep.filter
        (fun kw => strIncludes cl kw)).length
      let filterMatches := (ld.learnedKeywords.filter.filter
        (fun kw => strIncludes cl kw)).length
      if filterMatches < keepMatches then
        -0.1 * (min (keepMatches - filterMatches) 3 : ℕ)
      else if keepMatches < filterMatches then
        0.1 * (min (filterMatches - keepMatches) 3 : ℕ)
      else 0

/-- The pattern-weight branch of getLearningAdjustments: the loop over
matchedPatterns assigning, for every pattern with at least three
recorded observations, the weight 0.5 + hits/(hits+misses) into an
object keyed by pattern (modelled by the order-preserving assignment,
so a repeated pattern identifier collapses to one entry exactly as a JS
object key would). -/
def patternWeights (matchedPatterns : List PatId) (ld : LearningData) :
    List (PatId × ℚ) :=
  matchedPatterns.foldl (fun m p =>
    match ld.patternStats.lookup p with
    | some st =>
      if 3 ≤ st.hits + st.misses then
        assocSetP m p (0.5 + (st.hits : ℚ) / ((st.hits + st.misses : ℕ) : ℚ))
      else m
    | none => m) []

/-- getLearningAdjustments from the local learning module.  A null
learningData yields the neutral adjustments. -/
def getLearningAdjustments (author content : Option String)
    (matchedPatterns : List PatId) : Option LearningData → Adjustments
  | none => ⟨0, 0, [], none⟩
  | some ld =>
    ⟨(authorAdjPair author ld).1, keywordAdj content ld,
     patternWeights matchedPatterns ld, (authorAdjPair author ld).2⟩

/-- A classification result as consumed by the learning layer: the four
fields the function may rewrite, and the pass-through fields the
classifier or the remote path may attach.  Absent JS keys are none. -/
structure LResult where
  id : Option String
  filter : Bool
  category : Option String
  confidence : ℚ
  reason : String
  matchedPatterns : Option (List PatId)
  categoryLabel : Option String
  learningApplied : Option Bool
  deriving Repr, DecidableEq

/-- applyLearningToClassification from the local learning module.  A
null or non-filtering result is returned unchanged; a dominated author
short-circuits to an unfiltered result; otherwise the confidence is
rebuilt as clamp((confidence + authorAdjustment + keywordAdjustment) *
mean pattern weight when any) and the sub-threshold case flips the
filter decision. -/
def applyLearningSome (r : LResult) (author content : Option String)
    (learningData : Option LearningData) : Option LResult :=
  if r.filter = false then some r
  else
    let adj := getLearningAdjustments author content
      (r.matchedPatterns.getD []) learningData
    if adj.dominated = some "keep" then
      some { r with filter := false,
                    reason := "Author has strong positive reputation",
                    learningApplied := some true }
    else
      let a1 := r.confidence + adj.authorAdjustment + adj.keywordAdjustment
      let ws := adj.patternWeights.map Prod.snd
      let a2 := if 0 < ws.length then a1 * (ws.foldl (· + ·) 0 / ws.length) else a1
      let a3 := jsMax 0 (jsMin 1 a2)
      if a3 < 0.4 then
        some { r with filter := false, confidence := a3,
                      reason := "Confidence reduced by learning",
                      learningApplied := some true }
      else
        some { r with confidence := a3, learningApplied := some true }

/-- applyLearningToClassification from the local learning module; the
null result passes through. -/
def applyLearningToClassification (result : Option LResult)
    (author content : Option String) (learningData : Option LearningData) :
    Option LResult :=
  match result with
  | none => none
  | some r => applyLearningSome r author content learningData

theorem assocSetP_mem {β : Type} {pq : PatId × β} :
    ∀ {m : List (PatId × β)} {k : PatId} {v : β},
    pq ∈ assocSetP m k v → pq = (k, v) ∨ pq ∈ m := by
  intro m
  induction m with
  | nil =>
    intro k v h
    simp only [assocSetP, List.mem_singleton] at h
    exact Or.inl h
  | cons q t ih =>
    intro k v h
    rw [show assocSetP (q :: t) k v
        = if q.1 = k then (k, v) :: t else q :: assocSetP t k v from rfl] at h
    split at h
    · rcases List.mem_cons.mp h with h1 | h1
      · exact Or.inl h1
      · exact Or.inr (List.mem_cons_of_mem _ h1)
    · rcases List.mem_cons.mp h with h1 | h1
      · exact Or.inr (h1 ▸ List.mem_cons_self _ _)
      · rcases ih h1 with h2 | h2
        · exact Or.inl h2
        · exact Or.inr (List.mem_cons_of_mem _ h2)

/-- Every entry of the pattern-weight object comes from a pattern with
at least three observations and carries the weight 0.5 + accuracy. -/
theorem patternWeights_spec {ld : LearningData} {mp : List PatId} {pq : PatId × ℚ}
    (h : pq ∈ patternWeights mp ld) :
    ∃ st, ld.patternStats.lookup pq.1 = some st ∧ 3 ≤ st.hits + st.misses ∧
      pq.2 = 0.5 + (st.hits : ℚ) / ((st.hits + st.misses : ℕ) : ℚ) := by
  have hgen : ∀ (mp' : List PatId) (acc : List (PatId × ℚ)),
      (∀ pq' ∈ acc, ∃ st, ld.patternStats.lookup pq'.1 = some st ∧
        3 ≤ st.hits + st.misses ∧
        pq'.2 = 0.5 + (st.hits : ℚ) / ((st.hits + st.misses : ℕ) : ℚ)) →
      ∀ pq' ∈ mp'.foldl (fun m p =>
          match ld.patternStats.lookup p with
          | some st =>
            if 3 ≤ st.hits + st.misses then
              assocSetP m p (0.5 + (st.hits : ℚ) / ((st.hits + st.misses : ℕ) : ℚ))
            else m
          | none => m) acc,
        ∃ st, ld.patternStats.lookup pq'.1 = some st ∧ 3 ≤ st.hits + st.misses ∧
          pq'.2 = 0.5 + (st.hits : ℚ) / ((st.hits + st.misses : ℕ) : ℚ) := by
    intro mp'
    induction mp' with
    | nil => intro acc hacc pq' hpq; exact hacc pq' hpq
    | cons p ps ih =>
      intro acc hacc pq' hpq
      rw [List.foldl_cons] at hpq
      refine ih _ ?_ pq' hpq
      intro pq'' hpq''
      cases hlk : ld.patternStats.lookup p with
      | none =>
        rw [hlk] at hpq''
        exact hacc pq'' hpq''
      | some st =>
        rw [hlk] at hpq''
        have hpq2 : pq'' ∈ (if 3 ≤ st.hits + st.misses then
            assocSetP acc p (0.5 + (st.hits : ℚ) / ((st.hits + st.misses : ℕ) : ℚ))
          else acc) := hpq''
        by_cases hcond : 3 ≤ st.hits + st.misses
        · rw [if_pos hcond] at hpq2
          rcases assocSetP_mem hpq2 with h1 | h1
          · exact ⟨st, by rw [h1]; exact hlk, hcond, by rw [h1]⟩
          · exact hacc pq'' h1
        · rw [if_neg hcond] at hpq2
          exact hacc pq'' hpq2
  exact hgen mp [] (by simp) pq h

/-- C10: applyLearningToClassification only ever rewrites the filter,
confidence, reason and learningApplied fields; every other field of the
input result (id, category, matchedPatterns, categoryLabel) passes
through unchanged in every branch, and a null result stays null. -/
theorem c10_frame (result : Option LResult) (author content : Option String)
    (ld : Option LearningData) :
    (applyLearningToClassification result author content ld).map LResult.id
        = result.map LResult.id ∧
    (applyLearningToClassification result author content ld).map LResult.category
        = result.map LResult.category ∧
    (applyLearningToClassification result author content ld).map
        LResult.matchedPatterns = result.map LResult.matchedPatterns ∧
    (applyLearningToClassification result author content ld).map
        LResult.categoryLabel = result.map LResult.categoryLabel := by
  have hsome : ∀ r : LResult, ∃ f c rs la, applyLearningSome r author content ld
      = some { r with filter := f, confidence := c, reason := rs,
                      learningApplied := la } := by
    intro r
    simp only [applyLearningSome]
    by_cases h1 : r.filter = false
    · rw [if_pos h1]
      exact ⟨r.filter, r.confidence, r.reason, r.learningApplied, rfl⟩
    · rw [if_neg h1]
      by_cases h2 : (getLearningAdjustments author content
          (r.matchedPatterns.getD []) ld).dominated = some "keep"
      · rw [if_pos h2]
        exact ⟨false, r.confidence, "Author has strong positive reputation",
               some true, rfl⟩
      · rw [if_neg h2]
        repeat' split
        all_goals first
          | exact ⟨false, _, "Confidence reduced by learning", some true, rfl⟩
          | exact ⟨r.filter, _, r.reason, some true, rfl⟩
  cases result with
  | none => exact ⟨rfl, rfl, rfl, rfl⟩
  | some r =>
    have hred : applyLearningToClassification (some r) author content ld
        = applyLearningSome r author content ld := rfl
    obtain ⟨f, c, rs, la, heq⟩ := hsome r
    rw [hred, heq]
    exact ⟨rfl, rfl, rfl, rfl⟩

/-- C3: once the stored reputation of the (trimmed, lower-cased) author
reaches +20, applyLearningToClassification on any filtering base result
short-circuits to the base result with filter false, the reason
"Author has strong positive reputation" and learningApplied set,
ignoring keyword and pattern-weight adjustments (the confidence is left
untouched). -/
theorem c3_reputation_override (r : LResult) (a : String) (content : Option String)
    (ld : LearningData) (hf : r.filter = true) (ha : a ≠ "") (hu : a ≠ "Unknown")
    (hrep : 20 ≤ (ld.authorReputation.lookup (normalizeAuthor a)).getD 0) :
    applyLearningToClassification (some r) (some a) content (some ld)
      = some { r with filter := false,
                      reason := "Author has strong positive reputation",
                      learningApplied := some true } := by
  have hdom : (getLearningAdjustments (some a) content
      (r.matchedPatterns.getD []) (some ld)).dominated = some "keep" := by
    show (authorAdjPair (some a) ld).2 = some "keep"
    simp only [authorAdjPair]
    rw [if_pos ⟨ha, hu⟩]
    rw [if_neg (by omega), if_neg (by omega), if_pos (by omega)]
    simp only
    rw [if_pos (by omega)]
  have hred : applyLearningToClassification (some r) (some a) content (some ld)
      = applyLearningSome r (some a) content (some ld) := rfl
  rw [hred]
  unfold applyLearningSome
  rw [if_neg (by simp [hf])]
  simp only [hdom]
  simp

/-- C3, witness at a concrete author with reputation 25. -/
theorem c3_witness :
    applyLearningToClassification
        (some ⟨some "p9", true, some "politics", 0.8, "Matched 2 pattern(s)",
               none, none, none⟩)
        (some "Alice") none
        (some ⟨[("alice", 25)], ⟨[], []⟩, []⟩)
      = some ⟨some "p9", false, some "politics", 0.8,
              "Author has strong positive reputation", none, none, some true⟩ :=
  c3_reputation_override
    ⟨some "p9", true, some "politics", 0.8, "Matched 2 pattern(s)", none, none, none⟩
    "Alice" none ⟨[("alice", 25)], ⟨[], []⟩, []⟩ rfl (by decide) (by decide) (by decide)

/-- C2: for a filtering base result whose author does not trigger the
keep override, the new confidence is (base confidence + author
adjustment + keyword adjustment), multiplied by the mean of the pattern
weights when at least one pattern has three or more observations, then
clamped to [0, 1]; below 0.40 the decision flips to filter false with
reason "Confidence reduced by learning" and learningApplied set,
otherwise only confidence and learningApplied change.  The author
adjustment follows the reputation bands r <= -10: +0.20, -10 < r <= -5:
+0.10, 10 <= r < 20: -0.30, 5 <= r < 10: -0.15, otherwise 0 (the
normalized author must be present and not "Unknown" for any band to
apply), and every pattern weight is 0.5 + hits/(hits+misses) over at
least three observations. -/
theorem c2_confidence_pipeline (r : LResult) (author content : Option String)
    (ld : LearningData) (hf : r.filter = true)
    (hd : (getLearningAdjustments author content (r.matchedPatterns.getD [])
      (some ld)).dominated ≠ some "keep") :
    (applyLearningToClassification (some r) author content (some ld)
      = some (
        let adj := getLearningAdjustments author content
          (r.matchedPatterns.getD []) (some ld)
        let ws := adj.patternWeights.map Prod.snd
        let newConf := jsMax 0 (jsMin 1
          ((r.confidence + adj.authorAdjustment + adj.keywordAdjustment)
            * (if 0 < ws.length then ws.foldl (· + ·) (0 : ℚ) / (ws.length : ℚ) else 1)))
        if newConf < 0.4 then
          { r with filter := false, confidence := newConf,
                   reason := "Confidence reduced by learning",
                   learningApplied := some true }
        else
          { r with confidence := newConf, learningApplied := some true })) ∧
    (∀ a, author = some a → a ≠ "" → a ≠ "Unknown" →
      (getLearningAdjustments author content (r.matchedPatterns.getD [])
        (some ld)).authorAdjustment
        = (let rep := (ld.authorReputation.lookup (normalizeAuthor a)).getD 0
           if rep ≤ -10 then 0.2
           else if -10 < rep ∧ rep ≤ -5 then 0.1
           else if 10 ≤ rep ∧ rep < 20 then -0.3
           else if 5 ≤ rep ∧ rep < 10 then -0.15
           else 0)) ∧
    ((author = none ∨ author = some "" ∨ author = some "Unknown") →
      (getLearningAdjustments author content (r.matchedPatterns.getD [])
        (some ld)).authorAdjustment = 0) ∧
    (∀ pq ∈ (getLearningAdjustments author content (r.matchedPatterns.getD [])
        (some ld)).patternWeights,
      ∃ st, ld.patternStats.lookup pq.1 = some st ∧ 3 ≤ st.hits + st.misses ∧
        pq.2 = 0.5 + (st.hits : ℚ) / ((st.hits + st.misses : ℕ) : ℚ)) := by
  refine ⟨?_, ?_, ?_, fun pq hpq => patternWeights_spec hpq⟩
  · have hred : applyLearningToClassification (some r) author content (some ld)
        = applyLearningSome r author content (some ld) := rfl
    rw [hred]
    simp only [applyLearningSome]
    rw [if_neg (by simp [hf]), if_neg hd]
    set adj := getLearningAdjustments author content
      (r.matchedPatterns.getD []) (some ld) with hadj
    set ws := adj.patternWeights.map Prod.snd with hws
    by_cases hlen : 0 < ws.length
    · rw [if_pos hlen, if_pos hlen, apply_ite some]
    · rw [if_neg hlen, if_neg hlen, mul_one, apply_ite some]
  · rintro a rfl ha hu
    have hpair : (getLearningAdjustments (some a) content
        (r.matchedPatterns.getD []) (some ld)).authorAdjustment
        = (authorAdjPair (some a) ld).1 := rfl
    have hdom : (getLearningAdjustments (some a) content
        (r.matchedPatterns.getD []) (some ld)).dominated
        = (authorAdjPair (some a) ld).2 := rfl
    rw [hpair]
    rw [hdom] at hd
    simp only [authorAdjPair] at hd ⊢
    rw [if_pos ⟨ha, hu⟩] at hd ⊢
    set rep := (ld.authorReputation.lookup (normalizeAuthor a)).getD 0 with hrep
    have hlt20 : rep < 20 := by
      by_contra hge
      push_neg at hge
      rw [if_neg (by omega), if_neg (by omega), if_pos (by omega)] at hd
      simp only at hd
      rw [if_pos (by omega)] at hd
      exact hd rfl
    by_cases h1 : rep ≤ -10
    · simp only [if_pos h1]
    · simp only [if_neg h1]
      by_cases h2 : rep ≤ -5
      · rw [if_pos h2, if_pos (show -10 < rep ∧ rep ≤ -5 from ⟨by omega, h2⟩)]
      · rw [if_neg h2,
            if_neg (show ¬(-10 < rep ∧ rep ≤ -5) from fun hc => h2 hc.2)]
        by_cases h3 : 10 ≤ rep
        · rw [if_pos h3, if_pos (show 10 ≤ rep ∧ rep < 20 from ⟨h3, hlt20⟩)]
        · rw [if_neg h3,
              if_neg (show ¬(10 ≤ rep ∧ rep < 20) from fun hc => h3 hc.1)]
          by_cases h4 : 5 ≤ rep
          · rw [if_pos h4, if_pos (show 5 ≤ rep ∧ rep < 10 from ⟨h4, by omega⟩)]
          · rw [if_neg h4,
                if_neg (show ¬(5 ≤ rep ∧ rep < 10) from fun hc => h4 hc.1)]
  · intro hinv
    rcases hinv with rfl | rfl | rfl
    · rfl
    · show (authorAdjPair (some "") ld).1 = 0
      simp [authorAdjPair]
    · show (authorAdjPair (some "Unknown") ld).1 = 0
      simp [authorAdjPair]

/-- C2, witness: an author at reputation -12 (the +0.20 band), no
learned keywords and no pattern statistics: the confidence moves from
0.5 to 0.7 and the decision stays filter, with learningApplied set. -/
theorem c2_witness :
    applyLearningToClassification
        (some ⟨some "p1", true, some "ai_generated", 0.5, "Matched 1 pattern(s)",
               none, none, none⟩)
        (some "Bob") none (some ⟨[("bob", -12)], ⟨[], []⟩, []⟩)
      = some ⟨some "p1", true, some "ai_generated", 0.7, "Matched 1 pattern(s)",
              none, none, some true⟩ := by
  have h := (c2_confidence_pipeline
    ⟨some "p1", true, some "ai_generated", 0.5, "Matched 1 pattern(s)",
     none, none, none⟩
    (some "Bob") none ⟨[("bob", -12)], ⟨[], []⟩, []⟩ rfl (by decide)).1
  rw [h]
  have ha1 : (getLearningAdjustments (some "Bob") none []
      (some ⟨[("bob", -12)], ⟨[], []⟩, []⟩)).authorAdjustment = 0.2 := rfl
  have ha2 : (getLearningAdjustments (some "Bob") none []
      (some ⟨[("bob", -12)], ⟨[], []⟩, []⟩)).keywordAdjustment = 0 := rfl
  have ha3 : (getLearningAdjustments (some "Bob") none []
      (some ⟨[("bob", -12)], ⟨[], []⟩, []⟩)).patternWeights = [] := rfl
  simp only [Option.getD_none, ha1, ha2, ha3, List.map_nil, List.length_nil,
    lt_irrefl, if_false]
  norm_num [jsMax, jsMin]

end LinkedOut
